import Mathlib

/-!
Verification development for the cache-rs key/value cache server.

The Rust source is embedded shallowly: `f64` timestamps are modelled as exact
rationals (`ℚ`; every finite f64 is such a rational, and the comparisons the
code performs are exact), `HashMap`s / `HashSet`s as association lists resp.
duplicate-free lists, file handles by the list of records written to them, and
panicking code paths by `Option`-returning functions (`none` = the process
panics).  `localtime()` is modelled by an explicit parameter.
-/

namespace CacheRS

/-- Socket addresses (`server::ClientAddr`) are opaque atoms for our purposes. -/
abbrev ClientAddr := Nat

/-! ### Association-list model of `std::collections::HashMap` -/

section AssocMap

variable {α β : Type} [DecidableEq α]

/-- `HashMap::get`: the value of the first binding of `key`. -/
def mapGet : List (α × β) → α → Option β
  | [], _ => none
  | (k, v) :: rest, key => if k = key then some v else mapGet rest key

/-- `HashMap::insert`: replace the binding if present, else add one. -/
def mapSet : List (α × β) → α → β → List (α × β)
  | [], key, val => [(key, val)]
  | (k, v) :: rest, key, val =>
      if k = key then (k, val) :: rest else (k, v) :: mapSet rest key val

/-- `HashMap::remove` (of the first binding). -/
def mapRemove : List (α × β) → α → List (α × β)
  | [], _ => []
  | (k, v) :: rest, key => if k = key then rest else (k, v) :: mapRemove rest key

/-- `HashMap::contains_key`. -/
def mapHas (m : List (α × β)) (key : α) : Bool :=
  (mapGet m key).isSome

/-- The representation invariant of a `HashMap` modelled as an association
    list: keys are pairwise distinct. -/
def mapNodup (m : List (α × β)) : Prop :=
  (m.map Prod.fst).Nodup

end AssocMap

/-! ### `Entry` and key handling (database.rs / entry.rs) -/

/-- Rust `Entry`: timestamp, time-to-live (0 = never expires), expired flag,
    value (empty string = deleted). -/
structure Entry where
  time : ℚ
  ttl : ℚ
  expired : Bool
  value : String
deriving DecidableEq

/-- `Entry::new`: the `expired` flag is set iff the value is empty. -/
def Entry.new (time ttl : ℚ) (value : String) : Entry :=
  { time := time, ttl := ttl, expired := value == "", value := value }

/-- `Entry::expired()`: mark the entry as expired. -/
def Entry.mark_expired (e : Entry) : Entry :=
  { e with expired := true }

/-- Index of the last `'/'` in a character list (`str::rfind('/')`). -/
def rfindSlash : List Char → Option Nat
  | [] => none
  | c :: rest =>
      match rfindSlash rest with
      | some i => some (i + 1)
      | none => if c = '/' then some 0 else none

/-- `split_key`: split a full key at the last slash into `(catname, subkey)`;
    keys without a slash live in the reserved category `"nocat"`. -/
def split_key (key : String) : String × String :=
  match rfindSlash key.toList with
  | some i => (String.mk (key.toList.take i), String.mk (key.toList.drop (i + 1)))
  | none => ("nocat", key)

/-- `construct_key`: rebuild a full key from category and subkey; the reserved
    category `"nocat"` is elided together with its separator. -/
def construct_key (catname subkey : String) : String :=
  (if catname = "nocat" then "" else catname) ++
    (if catname = "nocat" then "" else "/") ++ subkey

/-! ### Protocol messages (message.rs) -/

/-- `CacheMsg`: every message (line) of the cache protocol.  `f64` fields are
    rationals; `from` is spelled `from_` (Lean keyword). -/
inductive CacheMsg where
  | Quit
  | Tell (key val : String) (no_store : Bool)
  | TellTS (key val : String) (time ttl : ℚ) (no_store : Bool)
  | TellOld (key val : String)
  | TellOldTS (key val : String) (time ttl : ℚ)
  | Ask (key : String) (with_ts : Bool)
  | AskWild (key_wc : String) (with_ts : Bool)
  | AskHist (key : String) (from_ delta : ℚ)
  | Subscribe (key_sub : String) (with_ts : Bool)
  | Unsub (key_sub : String) (with_ts : Bool)
  | Rewrite ( newpfx oldpfx : String)
  | Lock (key client : String) (time ttl : ℚ)
  | Unlock (key client : String)
  | LockRes (key client : String)
deriving DecidableEq

/-! ### Decimal formatting of timestamps

Rust serializes `f64` fields with `Display` (`format!("{}", x)`), which prints
the shortest decimal digit string (never exponent notation) that reads back as
the same float, and `str::parse::<f64>` round-trips it.  On our rational model
this corresponds to exact decimal printing of rationals with terminating
decimal expansion — every finite f64 value is such a rational. -/

/-- Digit-emitting loop of the integer `Display`; the fuel (first argument)
    makes the recursion structural, hence kernel-computable. -/
def natDigitsAux : Nat → Nat → List Char → List Char
  | 0, _, acc => acc
  | fuel + 1, n, acc =>
      if n < 10 then Char.ofNat (n + 48) :: acc
      else natDigitsAux fuel (n / 10) (Char.ofNat (n % 10 + 48) :: acc)

/-- Decimal digits of `n`, most significant first (integer `Display`). -/
def natDigits (n : Nat) : List Char :=
  natDigitsAux (n + 1) n []

/-- Value of a decimal digit string, most significant first. -/
def digitsToNat (cs : List Char) : Nat :=
  cs.foldl (fun n c => 10 * n + (c.toNat - 48)) 0

/-- Fueled multiplicity loop (fuel makes it structural). -/
def pMultAux : Nat → Nat → Nat → Nat
  | 0, _, _ => 0
  | fuel + 1, p, n =>
      if 2 ≤ p ∧ n ≠ 0 ∧ n % p = 0 then pMultAux fuel p (n / p) + 1 else 0

/-- Multiplicity of `p` in `n` (0 for `n = 0` or `p < 2`). -/
def pMult (p : Nat) (n : Nat) : Nat :=
  pMultAux (n + 1) p n

/-- Exponent of the terminating decimal expansion of a fraction with
    denominator `den`: the smallest `k` with `den ∣ 10^k`, whenever `den` has
    no prime factors besides 2 and 5. -/
def decExp (den : Nat) : Nat :=
  max (pMult 2 den) (pMult 5 den)

/-- Exact decimal digits of a nonnegative rational with terminating decimal
    expansion (integer part, and fractional digits without trailing zeros),
    mirroring `Display` for nonnegative `f64`. -/
def fmtNumNN (q : ℚ) : List Char :=
  let k := decExp q.den
  let m := (q * 10 ^ k).num.toNat
  if k = 0 then natDigits m
  else
    natDigits (m / 10 ^ k) ++ '.' ::
      (List.replicate (k - (natDigits (m % 10 ^ k)).length) '0' ++ natDigits (m % 10 ^ k))

/-- `Display` for `f64` on our rational model. -/
def fmtNum (q : ℚ) : List Char :=
  if q < 0 then '-' :: fmtNumNN (-q) else fmtNumNN q

/-- String form of a formatted timestamp. -/
def fmtNumS (q : ℚ) : String :=
  String.mk (fmtNum q)

/-- `ToString for CacheMsg` (message.rs:160-212). -/
def CacheMsg.to_string : CacheMsg → String
  | .Quit => "\n"
  | .Tell key val no_store =>
      key ++ (if no_store then "#" else "") ++ "=" ++ val ++ "\n"
  | .TellTS key val time ttl no_store =>
      if ttl > 0 then
        fmtNumS time ++ "+" ++ fmtNumS ttl ++ "@" ++ key ++
          (if no_store then "#" else "") ++ "=" ++ val ++ "\n"
      else
        fmtNumS time ++ "@" ++ key ++ (if no_store then "#" else "") ++ "=" ++ val ++ "\n"
  | .TellOld key val => key ++ "!" ++ val ++ "\n"
  | .TellOldTS key val time ttl =>
      fmtNumS time ++ "+" ++ fmtNumS ttl ++ "@" ++ key ++ "!" ++ val ++ "\n"
  | .Ask key with_ts =>
      if with_ts then "@" ++ key ++ "?\n" else key ++ "?\n"
  | .AskWild key_wc with_ts =>
      if with_ts then "@" ++ key_wc ++ "*\n" else key_wc ++ "*\n"
  | .AskHist key from_ delta =>
      fmtNumS from_ ++ "+" ++ fmtNumS delta ++ "@" ++ key ++ "?\n"
  | .Subscribe key_sub with_ts =>
      if with_ts then "@" ++ key_sub ++ ":\n" else key_sub ++ ":\n"
  | .Unsub key_sub with_ts =>
      if with_ts then "@" ++ key_sub ++ "|\n" else key_sub ++ "|\n"
  | .Lock key client time ttl =>
      fmtNumS time ++ "+" ++ fmtNumS ttl ++ "@" ++ key ++ "$+" ++ client ++ "\n"
  | .Unlock key client => key ++ "$-" ++ client ++ "\n"
  | .LockRes key client => key ++ "$" ++ client ++ "\n"
  | .Rewrite newpfx oldpfx => newpfx ++ "~" ++ oldpfx ++ "\n"

/-! ### The in-memory database `DB` (database.rs) -/

/-- One record appended to a store file by `Entry::to_file`, abstracted as the
    (subkey, entry) pair it renders. -/
abbrev FileRec := String × Entry

/-- `UpdaterMsg::Update(fullkey, entry, source)` (handler.rs:47). -/
abbrev UpdateEv := String × Entry × Option ClientAddr

/-- One `entry.to_file(subkey, files[cat])` persistence event:
    (category, subkey, entry). -/
abbrev SaveEv := String × String × Entry

/-- The `DB` struct (database.rs:132-151).  File handles are modelled by the
    records written to them; the update queue by the list of emitted events. -/
structure DB where
  entry_cats : List (String × List (String × Entry))
  files : List (String × List FileRec)
  locks : List (String × Entry)
  rewrites : List (String × List String)
  inv_rewrites : List (String × String)
  midnights : ℚ × ℚ
  ymd_path : String
deriving DecidableEq

/-- `DB::new`: empty maps; the midnight pair and day path are parameters
    (the code derives them from `now()`). -/
def DB.new (midnights : ℚ × ℚ) (ymd_path : String) : DB :=
  { entry_cats := [], files := [], locks := [], rewrites := [], inv_rewrites := [],
    midnights := midnights, ymd_path := ymd_path }

/-- `str::to_lowercase` (ASCII part suffices for our purposes). -/
def lowercase (s : String) : String :=
  String.mk (s.toList.map Char.toLower)

/-- `HashSet::insert` on a set modelled as a duplicate-free list. -/
def setInsert (s : List String) (x : String) : List String :=
  if x ∈ s then s else s ++ [x]

/-- First phase of `DB::rewrite` (database.rs:373-381): remove any existing
    rewrite to the `new` prefix, dropping the previous target set when it
    becomes empty. -/
def DB.rewriteRemove (db : DB) (new : String) : DB :=
  match mapGet db.inv_rewrites new with
  | some previous =>
      let db' := { db with inv_rewrites := mapRemove db.inv_rewrites new }
      match mapGet db'.rewrites previous with
      | some set =>
          let set' := set.erase new
          if set' = [] then { db' with rewrites := mapRemove db'.rewrites previous }
          else { db' with rewrites := mapSet db'.rewrites previous set' }
      | none => db'
  | none => db

/-- Second phase of `DB::rewrite` (database.rs:382-386): insert the rewrite
    `old → new` (`old` already lower-cased and nonempty). -/
def DB.rewriteInsert (db : DB) (new old : String) : DB :=
  { db with
    inv_rewrites := mapSet db.inv_rewrites new old,
    rewrites := mapSet db.rewrites old (setInsert ((mapGet db.rewrites old).getD []) new) }

/-- `DB::rewrite` (database.rs:370-389): remove any existing rewrite to `new`,
    then, if `old` (lower-cased) is nonempty, insert the new rewrite. -/
def DB.rewrite (db : DB) (new old : String) : DB :=
  let old := lowercase old
  let db1 := db.rewriteRemove new
  if old ≠ "" then db1.rewriteInsert new old else db1

/-- `DB::lock` (database.rs:504-548).  `lk` is the `lock` flag (true = lock,
    false = unlock), `nowv` the value of `localtime()`; the result is the new
    state together with the `LockRes` reply. -/
def DB.lock (db : DB) (lk : Bool) (key client : String) (time ttl nowv : ℚ) :
    DB × CacheMsg :=
  match mapGet db.locks key with
  | some e =>
      if lk then
        let lock_denied := e.value ≠ client ∧ (e.ttl = 0 ∨ e.time + e.ttl < nowv)
        if lock_denied then
          (db, CacheMsg.LockRes key e.value)
        else
          ({ db with locks := mapSet db.locks key (Entry.new time ttl client) },
           CacheMsg.LockRes key "")
      else
        if e.value ≠ client then
          (db, CacheMsg.LockRes key e.value)
        else
          ({ db with locks := mapRemove db.locks key }, CacheMsg.LockRes key "")
  | none =>
      if lk then
        ({ db with locks := mapSet db.locks key (Entry.new time ttl client) },
         CacheMsg.LockRes key "")
      else
        (db, CacheMsg.LockRes key "")

/-- `DB::rollover` (database.rs:279-303): for every open file, drop it and
    write a fresh file holding the non-expired entries of its category.  The
    new midnight pair and day path replace the `now()`-derived values.  Returns
    `none` where `entry_cats.get(&catname).unwrap()` would panic. -/
def DB.rollover (db : DB) (newMidnights : ℚ × ℚ) (newYmd : String) : Option DB := do
  let newFiles ← db.files.mapM (fun cf =>
    match mapGet db.entry_cats cf.1 with
    | none => none
    | some submap => some (cf.1, submap.filter (fun se => !se.2.expired)))
  some { db with files := newFiles, midnights := newMidnights, ymd_path := newYmd }

/-- The categories a `tell` writes to: the key's own category followed by its
    rewrite mirrors (database.rs:398-402). -/
def DB.newcats (db : DB) (catname : String) : List String :=
  catname :: (mapGet db.rewrites catname).getD []

/-- The `need_update` computation of `DB::tell` for one category
    (database.rs:405-420), as a predicate of the pre-state. -/
def DB.needUpdate (db : DB) (cat subkey val : String) : Bool :=
  match mapGet ((mapGet db.entry_cats cat).getD []) subkey with
  | some e =>
      if e.value = val ∧ e.expired = false then false
      else if val = "" ∧ e.expired = true then false
      else true
  | none => true

/-- One iteration of the `for cat in newcats` loop of `DB::tell`
    (database.rs:404-439).  The same-value branch refreshes `time`/`ttl` in
    place, but the following unconditional `submap.insert(subkey, entry)`
    overwrites the slot with the fresh entry anyway, so only `need_update`
    survives from the branch. -/
def DB.tellCat (db : DB) (cat subkey val : String) (time ttl : ℚ) (no_store : Bool)
    (src : ClientAddr) : DB × List SaveEv × List UpdateEv :=
  let entry := Entry.new time ttl val
  let submap := (mapGet db.entry_cats cat).getD []
  let need_update := db.needUpdate cat subkey val
  let db1 := { db with entry_cats := mapSet db.entry_cats cat (mapSet submap subkey entry) }
  let (db2, saves) :=
    if need_update && !no_store then
      -- create_fd for a missing category makes a fresh (empty) file, then the
      -- record is appended
      let files1 := if mapHas db1.files cat then db1.files else mapSet db1.files cat []
      ({ db1 with files := mapSet files1 cat ((mapGet files1 cat).getD [] ++ [(subkey, entry)]) },
       [(cat, subkey, entry)])
    else (db1, [])
  if need_update then
    (db2, saves, [(construct_key cat subkey, entry, some src)])
  else (db2, saves, [])

/-- The `for cat in newcats` loop of `DB::tell`, accumulating persistence and
    update events in order. -/
def DB.tellCats (db : DB) (cats : List String) (subkey val : String) (time ttl : ℚ)
    (no_store : Bool) (src : ClientAddr) : DB × List SaveEv × List UpdateEv :=
  match cats with
  | [] => (db, [], [])
  | cat :: rest =>
      let (db1, s1, u1) := db.tellCat cat subkey val time ttl no_store src
      let (db2, s2, u2) := db1.tellCats rest subkey val time ttl no_store src
      (db2, s1 ++ s2, u1 ++ u2)

/-- `DB::tell` (database.rs:392-441).  `newMidnights`/`newYmd` stand for the
    `now()`-derived day values used if the rollover triggers; `none` means the
    call panics (inside `rollover`). -/
def DB.tell (db : DB) (key val : String) (time ttl : ℚ) (no_store : Bool)
    (src : ClientAddr) (newMidnights : ℚ × ℚ) (newYmd : String) :
    Option (DB × List SaveEv × List UpdateEv) := do
  let db1 ← if time ≥ db.midnights.2 then db.rollover newMidnights newYmd else some db
  let (catname, subkey) := split_key key
  some (db1.tellCats (db1.newcats catname) subkey val time ttl no_store src)

/-- One entry step of `DB::clean` (database.rs:350-362): skip expired entries;
    mark a timed-out entry expired, emit the update, and append the expiry
    record to the category's store file — `none` when
    `self.files.get_mut(catname).unwrap()` panics because the category has no
    open store file. -/
def DB.cleanEntry (catname : String) (nowv : ℚ) (files : List (String × List FileRec))
    (subkey : String) (e : Entry) :
    Option ((String × Entry) × List (String × List FileRec) × List UpdateEv × List SaveEv) :=
  if e.expired then some ((subkey, e), files, [], [])
  else if e.ttl ≠ 0 ∧ e.time + e.ttl < nowv then
    let e' := { e with expired := true }
    match mapGet files catname with
    | none => none
    | some recs =>
        some ((subkey, e'), mapSet files catname (recs ++ [(subkey, e')]),
              [(construct_key catname subkey, e', none)], [(catname, subkey, e')])
  else some ((subkey, e), files, [], [])

/-- The inner loop of `DB::clean` over one category's submap. -/
def DB.cleanCat (catname : String) (nowv : ℚ) :
    List (String × Entry) → List (String × List FileRec) →
    Option (List (String × Entry) × List (String × List FileRec) × List UpdateEv × List SaveEv)
  | [], files => some ([], files, [], [])
  | (subkey, e) :: rest, files => do
      let (se', files1, u1, s1) ← DB.cleanEntry catname nowv files subkey e
      let (rest', files2, u2, s2) ← DB.cleanCat catname nowv rest files1
      some (se' :: rest', files2, u1 ++ u2, s1 ++ s2)

/-- The outer loop of `DB::clean` over all categories.  `localtime()` is read
    once per category in the code; a single `nowv` models a constant clock
    during the sweep. -/
def DB.cleanCats (nowv : ℚ) :
    List (String × List (String × Entry)) → List (String × List FileRec) →
    Option (List (String × List (String × Entry)) × List (String × List FileRec) ×
            List UpdateEv × List SaveEv)
  | [], files => some ([], files, [], [])
  | (catname, submap) :: rest, files => do
      let (submap', files1, u1, s1) ← DB.cleanCat catname nowv submap files
      let (rest', files2, u2, s2) ← DB.cleanCats nowv rest files1
      some ((catname, submap') :: rest', files2, u1 ++ u2, s1 ++ s2)

/-- `DB::clean` (database.rs:347-365): the post-state plus the update and
    persistence events, or `none` when the sweep panics. -/
def DB.clean (db : DB) (nowv : ℚ) : Option (DB × List UpdateEv × List SaveEv) := do
  let (cats', files', upds, saves) ← DB.cleanCats nowv db.entry_cats db.files
  some ({ db with entry_cats := cats', files := files' }, upds, saves)

instance : DecidableEq (DB × List SaveEv × List UpdateEv) :=
  @instDecidableEqProd _ _ instDecidableEqDB
    (@instDecidableEqProd _ _ inferInstance inferInstance)

instance : DecidableEq (DB × List UpdateEv × List SaveEv) :=
  @instDecidableEqProd _ _ instDecidableEqDB
    (@instDecidableEqProd _ _ inferInstance inferInstance)

/-- Does `DB::clean` expire this (subkey, entry) slot at time `nowv`? -/
def isExpiring (nowv : ℚ) (se : String × Entry) : Bool :=
  !se.2.expired && decide (se.2.ttl ≠ 0 ∧ se.2.time + se.2.ttl < nowv)

/-- The effect of one `DB::clean` sweep on a single entry. -/
def cleanedEntry (nowv : ℚ) (e : Entry) : Entry :=
  if e.expired then e
  else if e.ttl ≠ 0 ∧ e.time + e.ttl < nowv then e.mark_expired
  else e

/-- The entries `DB::clean` expires: every non-expired entry whose nonzero TTL
    has elapsed, in iteration order, as (catname, subkey, entry). -/
def DB.cleanExpiring (db : DB) (nowv : ℚ) : List (String × String × Entry) :=
  db.entry_cats.flatMap (fun cs =>
    (cs.2.filter (isExpiring nowv)).map (fun se => (cs.1, se.1, se.2)))

/-! ### The message grammar `MSG_RE` (message.rs:34-45)

The anchored regex

    ^ (?: \s*(time)? \s*(ttlop) \s*(ttl)? \s*(tsop:@) )?
      \s*(key:[^=!?:*$]*?) \s*(op:[=!?:|*$~]) \s*(value:[^\r\n]*?) \s* $

is embedded as a backtracking matcher over character lists.  `\s` and `\d` are
modelled by their ASCII parts (protocol traffic is ASCII). -/

/-- Regex `\s` (ASCII part). -/
def isWs (c : Char) : Bool :=
  c == ' ' || c == '\t' || c == '\n' || c == '\r' || c == '\x0b' || c == '\x0c'

/-- The operator class `[=!?:|*$~]`. -/
def isOpChar (c : Char) : Bool :=
  c == '=' || c == '!' || c == '?' || c == ':' || c == '|' || c == '*' || c == '$' || c == '~'

/-- Characters excluded from the key class `[^=!?:*$]` (note: `|` and `~` are
    allowed inside keys). -/
def isKeyExcl (c : Char) : Bool :=
  c == '=' || c == '!' || c == '?' || c == ':' || c == '*' || c == '$'

/-- Strip leading regex-whitespace. -/
def dropWs (cs : List Char) : List Char :=
  cs.dropWhile isWs

/-- Strip regex-whitespace on both ends. -/
def trimWs (cs : List Char) : List Char :=
  ((cs.dropWhile isWs).reverse.dropWhile isWs).reverse

/-- Does `cs` match the timestamp numeral `\d+\.?\d*` entirely? -/
def isNumCore (cs : List Char) : Bool :=
  let d1 := cs.takeWhile Char.isDigit
  !d1.isEmpty &&
    (match cs.drop d1.length with
     | [] => true
     | c :: rest => c == '.' && rest.all Char.isDigit)

/-- Does `cs` match the ttl numeral `\d+\.?\d*(?:[eE][+-]?\d+)?` entirely? -/
def isTtlNum (cs : List Char) : Bool :=
  let mant := cs.takeWhile (fun c => c.isDigit || c == '.')
  isNumCore mant &&
    (match cs.drop mant.length with
     | [] => true
     | e :: rest =>
         (e == 'e' || e == 'E') &&
           (match rest with
            | c :: d =>
                if c = '+' || c = '-' then !d.isEmpty && d.all Char.isDigit
                else !rest.isEmpty && rest.all Char.isDigit
            | [] => false))

/-- All ways a greedy numeral quantifier can match a prefix of `cs`, longest
    first — the backtracking order of `\d+\.?\d*(...)?`. -/
def numCands (valid : List Char → Bool) (cs : List Char) : List (List Char × List Char) :=
  (List.range (cs.length + 1)).reverse.filterMap (fun n =>
    if n ≠ 0 ∧ valid (cs.take n) = true then some (cs.take n, cs.drop n) else none)

/-- Captures of the optional timestamp prefix group: the `time` and `ttl`
    numerals and whether `ttlop` captured `-`. -/
structure PreCap where
  time : Option (List Char)
  minus : Bool
  ttl : Option (List Char)
deriving DecidableEq

/-- All ways the group `\s*(time)?\s*([+-]?)\s*(ttl)?\s*@` can match a prefix
    of `cs`, in backtracking order; each alternative yields its captures and
    the rest of the input after `@`.  The `\s*` gaps are deterministic because
    none of the neighbouring patterns can consume whitespace. -/
def tsAlts (cs : List Char) : List (PreCap × List Char) :=
  let cs1 := dropWs cs
  let timeAlts := (numCands isNumCore cs1).map (fun p => (some p.1, p.2)) ++ [(none, cs1)]
  timeAlts.flatMap (fun ta =>
    let rest1 := dropWs ta.2
    let signAlts : List (Bool × List Char) :=
      match rest1 with
      | c :: r =>
          if c = '+' then [(false, r), (false, rest1)]
          else if c = '-' then [(true, r), (false, rest1)]
          else [(false, rest1)]
      | [] => [(false, rest1)]
    signAlts.flatMap (fun sa =>
      let rest2 := dropWs sa.2
      let ttlAlts := (numCands isTtlNum rest2).map (fun p => (some p.1, p.2)) ++ [(none, rest2)]
      ttlAlts.filterMap (fun tta =>
        match dropWs tta.2 with
        | c :: r =>
            if c = '@' then some ({ time := ta.1, minus := sa.1, ttl := tta.1 }, r) else none
        | [] => none)))

/-- The characters the optional prefix group of `MSG_RE` can span before its
    closing `@`: whitespace and numeral characters (digits, point, sign,
    exponent letters). -/
def isPre (c : Char) : Bool :=
  isWs c || c.isDigit || c == '.' || c == '+' || c == '-' || c == 'e' || c == 'E'

/-- Match `\s* value \s* $` against the text after the operator: the capture is
    the whitespace-trimmed core, unless a CR/LF sits inside it. -/
def valCapture (cs : List Char) : Option (List Char) :=
  let core := trimWs cs
  if core.all (fun c => !(c == '\n' || c == '\r')) then some core else none

/-- Match `\s* key \s* op \s* value \s* $`: the lazy key makes the match use
    the earliest operator character whose value region is admissible; `acc`
    accumulates the text already committed to the key region.  A `|` or `~`
    (in both the key and the operator class) can be swallowed by the key when
    backtracking, any other operator character cannot. -/
def keyOpVal (acc : List Char) : List Char → Option (List Char × Char × List Char)
  | [] => none
  | c :: rest =>
      if isOpChar c then
        match valCapture rest with
        | some v => some (trimWs acc, c, v)
        | none => if isKeyExcl c then none else keyOpVal (acc ++ [c]) rest
      else keyOpVal (acc ++ [c]) rest

/-- Captures of a successful `MSG_RE` match. -/
structure RawCaps where
  pre : Option PreCap
  key : List Char
  op : Char
  value : List Char
deriving DecidableEq

/-- The anchored `MSG_RE` match: the greedy optional prefix group is tried
    first, in backtracking order, with the key/op/value tail after it; if no
    prefix alternative extends to a full match, the group matches empty. -/
def msgMatch (cs : List Char) : Option RawCaps :=
  match (tsAlts cs).findSome? (fun pa =>
      (keyOpVal [] pa.2).map (fun kov => RawCaps.mk (some pa.1) kov.1 kov.2.1 kov.2.2)) with
  | some r => some r
  | none => (keyOpVal [] cs).map (fun kov => RawCaps.mk none kov.1 kov.2.1 kov.2.2)

/-- The fraction digits after the decimal point (empty when the remainder does
    not start with one). -/
def fracOf (l : List Char) : List Char :=
  match l with
  | c :: r => if c = '.' then r else []
  | [] => []

/-- Apply an optional exponent suffix to the parsed mantissa, as
    `str::parse::<f64>` does. -/
def expEval (base : ℚ) : List Char → Option ℚ
  | [] => some base
  | e :: r =>
      if e == 'e' || e == 'E' then
        match r with
        | c :: d =>
            if c = '+' then
              if !d.isEmpty && d.all Char.isDigit then some (base * 10 ^ digitsToNat d) else none
            else if c = '-' then
              if !d.isEmpty && d.all Char.isDigit then some (base / 10 ^ digitsToNat d) else none
            else
              if !r.isEmpty && r.all Char.isDigit then some (base * 10 ^ digitsToNat r) else none
        | [] => none
      else none

/-- `str::parse::<f64>` on the numeral shapes the regex captures (digits,
    optional fraction, optional exponent), exact over ℚ. -/
def parseNum (cs : List Char) : Option ℚ :=
  let mant := cs.takeWhile (fun c => c.isDigit || c == '.')
  let intPart := mant.takeWhile Char.isDigit
  let fracPart := fracOf (mant.drop intPart.length)
  if intPart = [] ∧ fracPart = [] then none
  else if !fracPart.all Char.isDigit then none
  else
    expEval ((digitsToNat intPart : ℚ) + (digitsToNat fracPart : ℚ) / (10 : ℚ) ^ fracPart.length)
      (cs.drop mant.length)

/-- Outcome of `CacheMsg::parse`: a message, a skipped line (`None`, logged
    and ignored), or a panicking out-of-range string slice. -/
inductive ParseOutcome where
  | ok (msg : CacheMsg)
  | skip
  | oob
deriving DecidableEq

/-- `CacheMsg::parse` (message.rs:93-153).  `nowv` models `localtime()`.  The
    byte slices `&val[1..]` / `&val[0..1]` of the `$` arm are in range exactly
    when the value capture is nonempty; an empty capture makes them panic
    (`oob`). -/
def CacheMsg.parse (nowv : ℚ) (line : String) : ParseOutcome :=
  match msgMatch line.toList with
  | some caps =>
      let hasTsop := caps.pre.isSome
      let t1 : ℚ :=
        match caps.pre with
        | some pre => (pre.time.bind parseNum).getD nowv
        | none => nowv
      let dt : ℚ :=
        match caps.pre with
        | some pre =>
            let dt0 := (pre.ttl.bind parseNum).getD 0
            if pre.minus then dt0 - t1 else dt0
        | none => 0
      let key := String.mk caps.key
      let val := String.mk caps.value
      if caps.op = '=' then
        let no_store := caps.key.getLast? == some '#'
        let real_key := if no_store then String.mk caps.key.dropLast else key
        if hasTsop then .ok (.TellTS real_key val t1 dt no_store)
        else .ok (.Tell real_key val no_store)
      else if caps.op = '!' then
        if hasTsop then .ok (.TellOldTS key val t1 dt) else .ok (.TellOld key val)
      else if caps.op = '?' then
        if hasTsop ∧ dt ≠ 0 then .ok (.AskHist key t1 dt) else .ok (.Ask key hasTsop)
      else if caps.op = '*' then .ok (.AskWild key hasTsop)
      else if caps.op = ':' then .ok (.Subscribe key hasTsop)
      else if caps.op = '|' then .ok (.Unsub key hasTsop)
      else if caps.op = '$' then
        match caps.value with
        | [] => .oob
        | c :: rest =>
            if c = '+' then .ok (.Lock key (String.mk rest) t1 dt)
            else if c = '-' then .ok (.Unlock key (String.mk rest))
            else .ok (.LockRes key val)
      else if caps.op = '~' then .ok (.Rewrite key val)
      else .skip
  | none => if trimWs line.toList = [] then .ok .Quit else .skip

/-! ### Flat-file store history queries (store_flat.rs) -/

/-- `str::split('\t')` (keeps empty fields). -/
def splitOnTab : List Char → List (List Char)
  | [] => [[]]
  | c :: rest =>
      match splitOnTab rest with
      | h :: t => if c = '\t' then [] :: h :: t else (c :: h) :: t
      | [] => [[]]

/-- One line of `Store::read_history` (store_flat.rs:284-291): trim, split at
    tabs, keep 4-field records of the requested subkey; `"-"` denotes the empty
    value, an unparsable timestamp becomes `0`. -/
def readHistLine (subkey : List Char) (line : List Char) : Option (ℚ × List Char) :=
  match splitOnTab (trimWs line) with
  | [p0, p1, _, p3] =>
      if p0 = subkey then some ((parseNum p1).getD 0, if p3 = ['-'] then [] else p3)
      else none
  | _ => none

/-- A day-directory filesystem: `(day path, category file name) ↦` the file's
    lines, `none` when `path.is_file()` is false. -/
abbrev HistFs := String → String → Option (List (List Char))

/-- `Store::read_history` (store_flat.rs:274-294): the `(time, value)` samples
    of `subkey` in the category's file under `path`, in file line order. -/
def Store.read_history (fs : HistFs) (path catname subkey : String) :
    List (ℚ × List Char) :=
  match fs path (String.mk (catname.toList.map (fun c => if c = '/' then '-' else c))) with
  | none => []
  | some lines => lines.filterMap (readHistLine subkey.toList)

/-- `Store::send_history` (store_flat.rs:154-179): scan today's file when
    `from ≥` the last midnight, else every day directory of `all_days(from,
    to)` (passed in as `allDays`: calendar arithmetic is outside the model),
    filter by `from ≤ time ≤ to` and emit a `TellTS` per sample.  The
    batch-of-100 concatenation preserves order and is not modelled. -/
def Store.send_history (fs : HistFs) (midnights : ℚ × ℚ) (ymd_path : String)
    (allDays : List String) (key : String) (fromv tov : ℚ) : List CacheMsg :=
  let (catname, subkey) := split_key key
  let paths := if fromv ≥ midnights.1 then [ymd_path] else allDays
  paths.flatMap (fun path =>
    (Store.read_history fs path catname subkey).filterMap (fun tv =>
      if fromv ≤ tv.1 ∧ tv.1 ≤ tov then
        some (CacheMsg.TellTS key (String.mk tv.2) tv.1 0 false)
      else none))

/-- The timestamps of a list of history replies (`TellTS` messages). -/
def histTimes (msgs : List CacheMsg) : List ℚ :=
  msgs.map (fun m => match m with | .TellTS _ _ t _ _ => t | _ => 0)

/-- The filtered sample timestamps one scanned day contributes. -/
def histPiece (fs : HistFs) (key : String) (fromv tov : ℚ) (path : String) : List ℚ :=
  (Store.read_history fs path (split_key key).1 (split_key key).2).filterMap (fun tv =>
    if fromv ≤ tv.1 ∧ tv.1 ≤ tov then some tv.1 else none)

/-- A concrete one-day filesystem whose two records for subkey `b` appear in
    decreasing time order (a writer may append a correction with an older
    timestamp; the store never reorders lines). -/
def histFsCex : HistFs := fun path cat =>
  if path = "d" && cat = "a" then
    some ["b\t2\t+\tx".toList, "b\t1\t+\ty".toList]
  else none

/-- The same filesystem with the two records in increasing time order. -/
def histFsW : HistFs := fun path cat =>
  if path = "d" && cat = "a" then
    some ["b\t1\t+\tx".toList, "b\t2\t+\ty".toList]
  else none

/-! ### Specification-side predicates -/

/-- Bidirectional consistency of the rewrite maps (spec §3, Rewrites), plus the
    `HashMap` / `HashSet` representation invariants of the list model. -/
def rewritesConsistent (db : DB) : Prop :=
  mapNodup db.rewrites ∧ mapNodup db.inv_rewrites ∧
  (∀ o s, mapGet db.rewrites o = some s → s.Nodup) ∧
  (∀ n o, mapGet db.inv_rewrites n = some o →
      ∃ s, mapGet db.rewrites o = some s ∧ n ∈ s) ∧
  (∀ o s n, mapGet db.rewrites o = some s → n ∈ s → mapGet db.inv_rewrites n = some o)

/-- The per-entry representation invariant: a deleted value is always flagged
    expired.  `Entry::new` establishes it and every mutation preserves it. -/
def entryInv (e : Entry) : Prop :=
  e.value = "" → e.expired = true

/-- Characters that may sit in a key without disturbing the wire grammar:
    no operator characters, no `@`, no whitespace. -/
def keySafeChar (c : Char) : Bool :=
  !isOpChar c && !isWs c && c != '@'

/-- A wire-safe key. -/
def keySafe (key : String) : Bool :=
  key.toList.all keySafeChar

/-- A list whose ends carry no regex whitespace. -/
def trimmedB (cs : List Char) : Bool :=
  cs.dropWhile isWs == cs && cs.reverse.dropWhile isWs == cs.reverse

/-- A wire-safe value: no CR/LF anywhere, no whitespace at either end. -/
def valSafe (v : String) : Bool :=
  trimmedB v.toList && v.toList.all (fun c => !(c == '\n' || c == '\r'))

/-- The key does not end in `#` (which would be stripped as the no-store
    marker on value updates). -/
def noHashEnd (k : String) : Bool :=
  k.toList.getLast? != some '#'

/-- A nonnegative rational with terminating decimal expansion — the image of
    the finite nonnegative `f64` values in our model. -/
def decimalNN (q : ℚ) : Prop :=
  0 ≤ q ∧ q.den ∣ 10 ^ decExp q.den

/-- The message kinds a server emits: value updates, expired-value updates and
    lock replies (query replies are themselves `Tell*` messages). -/
def emittedKind : CacheMsg → Prop
  | .Tell _ _ _ => True
  | .TellTS _ _ _ _ _ => True
  | .TellOld _ _ => True
  | .TellOldTS _ _ _ _ => True
  | .LockRes _ _ => True
  | _ => False

/-- Wire safety of an emitted message: keys and values are wire-safe, numeric
    fields are nonnegative terminating decimals, and a lock reply names a
    nonempty client not starting with the lock/unlock markers. -/
def wireSafe : CacheMsg → Prop
  | .Tell key val _ => keySafe key ∧ valSafe val ∧ noHashEnd key
  | .TellTS key val time ttl _ =>
      keySafe key ∧ valSafe val ∧ noHashEnd key ∧ decimalNN time ∧ decimalNN ttl
  | .TellOld key val => keySafe key ∧ valSafe val
  | .TellOldTS key val time ttl =>
      keySafe key ∧ valSafe val ∧ decimalNN time ∧ decimalNN ttl
  | .LockRes key client =>
      keySafe key ∧ valSafe client ∧ client ≠ "" ∧
        client.toList.head? ≠ some '+' ∧ client.toList.head? ≠ some '-'
  | _ => True

/-! ## Theorems -/

/-! ### Association-map lemmas -/

section AssocMapLemmas

variable {α β : Type} [DecidableEq α] {m : List (α × β)} {k k' x : α} {v : β}

theorem mapGet_set_self : mapGet (mapSet m k v) k = some v := by
  induction m with
  | nil => simp [mapSet, mapGet]
  | cons kv rest ih =>
      obtain ⟨k0, v0⟩ := kv
      by_cases h : k0 = k
      · simp [mapSet, h, mapGet]
      · simp [mapSet, h, mapGet, ih]

theorem mapGet_set_ne (h : k' ≠ k) : mapGet (mapSet m k v) k' = mapGet m k' := by
  induction m with
  | nil => simp [mapSet, mapGet, Ne.symm h]
  | cons kv rest ih =>
      obtain ⟨k0, v0⟩ := kv
      by_cases h0 : k0 = k
      · subst h0
        simp [mapSet, mapGet, Ne.symm h]
      · simp [mapSet, h0, mapGet, ih]

theorem mapGet_remove_ne (h : k' ≠ k) : mapGet (mapRemove m k) k' = mapGet m k' := by
  induction m with
  | nil => simp [mapRemove]
  | cons kv rest ih =>
      obtain ⟨k0, v0⟩ := kv
      by_cases h0 : k0 = k
      · subst h0
        simp [mapRemove, mapGet, Ne.symm h]
      · simp [mapRemove, h0, mapGet, ih]

theorem mapGet_eq_none_of_not_memKey (h : k ∉ m.map Prod.fst) : mapGet m k = none := by
  induction m with
  | nil => simp [mapGet]
  | cons kv rest ih =>
      obtain ⟨k0, v0⟩ := kv
      simp only [List.map_cons, List.mem_cons] at h
      push_neg at h
      simp [mapGet, Ne.symm h.1, ih h.2]

theorem mapGet_remove_self (h : mapNodup m) : mapGet (mapRemove m k) k = none := by
  induction m with
  | nil => simp [mapRemove, mapGet]
  | cons kv rest ih =>
      obtain ⟨k0, v0⟩ := kv
      simp only [mapNodup, List.map_cons, List.nodup_cons] at h
      by_cases h0 : k0 = k
      · subst h0
        simp only [mapRemove, if_pos rfl]
        exact mapGet_eq_none_of_not_memKey h.1
      · simp [mapRemove, mapGet, h0, ih h.2]

theorem memKey_mapSet (h : x ∈ (mapSet m k v).map Prod.fst) :
    x ∈ m.map Prod.fst ∨ x = k := by
  induction m with
  | nil =>
      simp only [mapSet, List.map_cons, List.map_nil, List.mem_singleton] at h
      exact Or.inr h
  | cons kv rest ih =>
      obtain ⟨k0, v0⟩ := kv
      by_cases h0 : k0 = k
      · subst h0
        simp only [mapSet, if_pos rfl, List.map_cons, List.mem_cons] at h
        simpa using Or.inl h
      · simp only [mapSet, if_neg h0, List.map_cons, List.mem_cons] at h
        rcases h with h | h
        · simp [h]
        · rcases ih h with h1 | h1
          · simp [h1]
          · exact Or.inr h1

theorem memKey_mapRemove (h : x ∈ (mapRemove m k).map Prod.fst) :
    x ∈ m.map Prod.fst := by
  induction m with
  | nil => simp [mapRemove] at h
  | cons kv rest ih =>
      obtain ⟨k0, v0⟩ := kv
      by_cases h0 : k0 = k
      · subst h0
        simp only [mapRemove, if_pos rfl] at h
        simp only [List.map_cons, List.mem_cons]
        exact Or.inr h
      · simp only [mapRemove, if_neg h0, List.map_cons, List.mem_cons] at h
        rcases h with h | h
        · simp [h]
        · simp [ih h]

theorem mapNodup_set (h : mapNodup m) : mapNodup (mapSet m k v) := by
  induction m with
  | nil => simp [mapSet, mapNodup]
  | cons kv rest ih =>
      obtain ⟨k0, v0⟩ := kv
      simp only [mapNodup, List.map_cons, List.nodup_cons] at h
      by_cases h0 : k0 = k
      · subst h0
        simpa [mapSet, mapNodup] using h
      · simp only [mapSet, if_neg h0, mapNodup, List.map_cons, List.nodup_cons]
        refine ⟨?_, ih h.2⟩
        intro hmem
        rcases memKey_mapSet hmem with h1 | h1
        · exact h.1 h1
        · exact h0 h1

theorem mapNodup_remove (h : mapNodup m) : mapNodup (mapRemove m k) := by
  induction m with
  | nil => simpa [mapRemove] using h
  | cons kv rest ih =>
      obtain ⟨k0, v0⟩ := kv
      simp only [mapNodup, List.map_cons, List.nodup_cons] at h
      by_cases h0 : k0 = k
      · subst h0
        simpa [mapRemove, mapNodup] using h.2
      · simp only [mapRemove, if_neg h0, mapNodup, List.map_cons, List.nodup_cons]
        exact ⟨fun hmem => h.1 (memKey_mapRemove hmem), ih h.2⟩

end AssocMapLemmas

/-! ### C5: key split / construct round-trip -/

theorem rfindSlash_decomp :
    ∀ {cs : List Char} {i : Nat}, rfindSlash cs = some i →
      cs.take i ++ '/' :: cs.drop (i + 1) = cs := by
  intro cs
  induction cs with
  | nil => intro i h; simp [rfindSlash] at h
  | cons c rest ih =>
      intro i h
      simp only [rfindSlash] at h
      cases hr : rfindSlash rest with
      | some j =>
          rw [hr] at h
          injection h with h
          subst h
          simpa [List.take, List.drop] using ih hr
      | none =>
          rw [hr] at h
          by_cases hc : c = '/'
          · rw [if_pos hc] at h
            injection h with h
            subst h
            simp [hc]
          · rw [if_neg hc] at h
            exact absurd h (by simp)

theorem rfindSlash_some_mem {cs : List Char} {i : Nat} (h : rfindSlash cs = some i) :
    '/' ∈ cs := by
  have := rfindSlash_decomp h
  rw [← this]
  simp

/-- C5 (amended): `construct_key (split_key k) = k` for every key whose
    category half is not the reserved name `"nocat"` — in particular for every
    key without a slash ("foo" → ("nocat","foo") → "foo"), but not for keys
    such as "nocat/x" that literally start with "nocat/". -/
theorem construct_split_roundtrip (k : String)
    (h : (split_key k).1 ≠ "nocat" ∨ '/' ∉ k.toList) :
    construct_key (split_key k).1 (split_key k).2 = k := by
  cases hs : rfindSlash k.toList with
  | none =>
      simp only [split_key, hs, construct_key, if_pos rfl]
      apply String.ext
      simp [String.data_append]
  | some i =>
      have hcat : (split_key k).1 ≠ "nocat" := by
        rcases h with h | h
        · exact h
        · exact absurd (rfindSlash_some_mem hs) h
      simp only [split_key, hs] at hcat ⊢
      simp only [construct_key, if_neg hcat]
      apply String.ext
      simp only [String.data_append]
      show k.toList.take i ++ ['/'] ++ k.toList.drop (i + 1) = k.data
      simpa using rfindSlash_decomp hs

/-- C5 counterexample: a key whose category half is literally `"nocat"` does
    not survive the round-trip, although it contains a slash. -/
theorem construct_split_nocat_cex :
    construct_key (split_key "nocat/x").1 (split_key "nocat/x").2 ≠ "nocat/x" ∧
      '/' ∈ "nocat/x".toList := by
  constructor
  · decide
  · decide

/-- Witness for the amended C5 at a concrete two-level key. -/
theorem construct_split_roundtrip_witness :
    construct_key (split_key "a/b").1 (split_key "a/b").2 = "a/b" :=
  construct_split_roundtrip "a/b" (Or.inl (by decide))

/-! ### C9: bidirectional consistency of the rewrite maps -/

theorem mem_setInsert_self (s : List String) (x : String) : x ∈ setInsert s x := by
  by_cases h : x ∈ s <;> simp [setInsert, h]

theorem mem_setInsert_of_mem {s : List String} {y : String} (x : String) (h : y ∈ s) :
    y ∈ setInsert s x := by
  by_cases hx : x ∈ s <;> simp [setInsert, hx, h]

theorem mem_setInsert {s : List String} {x y : String} (h : y ∈ setInsert s x) :
    y ∈ s ∨ y = x := by
  by_cases hx : x ∈ s
  · rw [setInsert, if_pos hx] at h
    exact Or.inl h
  · rw [setInsert, if_neg hx] at h
    simpa using h

theorem nodup_setInsert {s : List String} (x : String) (h : s.Nodup) :
    (setInsert s x).Nodup := by
  by_cases hx : x ∈ s
  · simpa [setInsert, hx] using h
  · simp [setInsert, hx, List.nodup_append, h]

theorem eq_of_erase_nil {s : List String} {n x : String}
    (he : s.erase x = []) (hn : n ∈ s) : n = x := by
  induction s with
  | nil => cases hn
  | cons a rest ih =>
      rw [List.erase_cons] at he
      by_cases ha : a = x
      · subst ha
        simp only [beq_self_eq_true, if_true] at he
        subst he
        simpa using hn
      · simp [ha] at he

theorem rewriteRemove_consistent {db : DB} (h : rewritesConsistent db) (new : String) :
    rewritesConsistent (db.rewriteRemove new) ∧
    mapGet (db.rewriteRemove new).inv_rewrites new = none := by
  obtain ⟨hnr, hni, hsn, h1, h2⟩ := h
  unfold DB.rewriteRemove
  cases hInv : mapGet db.inv_rewrites new with
  | none => exact ⟨⟨hnr, hni, hsn, h1, h2⟩, hInv⟩
  | some previous =>
      obtain ⟨s, hs, hmem⟩ := h1 new previous hInv
      simp only [hs]
      by_cases hnil : s.erase new = []
      · simp only [if_pos hnil]
        refine ⟨⟨mapNodup_remove hnr, mapNodup_remove hni, ?_, ?_, ?_⟩,
          mapGet_remove_self hni⟩
        · intro o s1 hget
          by_cases ho : o = previous
          · subst ho
            rw [mapGet_remove_self hnr] at hget
            cases hget
          · rw [mapGet_remove_ne ho] at hget
            exact hsn o s1 hget
        · intro n o hget
          by_cases hn : n = new
          · subst hn
            rw [mapGet_remove_self hni] at hget
            cases hget
          · rw [mapGet_remove_ne hn] at hget
            obtain ⟨s2, hs2, hm2⟩ := h1 n o hget
            by_cases ho : o = previous
            · subst ho
              rw [hs] at hs2
              injection hs2 with hs2
              subst hs2
              exact absurd (eq_of_erase_nil hnil hm2) hn
            · exact ⟨s2, by rw [mapGet_remove_ne ho]; exact hs2, hm2⟩
        · intro o s1 n hget hm
          by_cases ho : o = previous
          · subst ho
            rw [mapGet_remove_self hnr] at hget
            cases hget
          · rw [mapGet_remove_ne ho] at hget
            have hinvn := h2 o s1 n hget hm
            have hn : n ≠ new := by
              intro he
              subst he
              rw [hInv] at hinvn
              injection hinvn with hinvn
              exact ho hinvn.symm
            rw [mapGet_remove_ne hn]
            exact hinvn
      · simp only [if_neg hnil]
        have hsnp := hsn previous s hs
        refine ⟨⟨mapNodup_set hnr, mapNodup_remove hni, ?_, ?_, ?_⟩,
          mapGet_remove_self hni⟩
        · intro o s1 hget
          by_cases ho : o = previous
          · subst ho
            rw [mapGet_set_self] at hget
            injection hget with hget
            subst hget
            exact hsnp.erase new
          · rw [mapGet_set_ne ho] at hget
            exact hsn o s1 hget
        · intro n o hget
          by_cases hn : n = new
          · subst hn
            rw [mapGet_remove_self hni] at hget
            cases hget
          · rw [mapGet_remove_ne hn] at hget
            obtain ⟨s2, hs2, hm2⟩ := h1 n o hget
            by_cases ho : o = previous
            · subst ho
              rw [hs] at hs2
              injection hs2 with hs2
              subst hs2
              refine ⟨s.erase new, by rw [mapGet_set_self], ?_⟩
              exact (hsnp.mem_erase_iff).mpr ⟨hn, hm2⟩
            · exact ⟨s2, by rw [mapGet_set_ne ho]; exact hs2, hm2⟩
        · intro o s1 n hget hm
          by_cases ho : o = previous
          · subst ho
            rw [mapGet_set_self] at hget
            injection hget with hget
            subst hget
            have := (hsnp.mem_erase_iff).mp hm
            rw [mapGet_remove_ne this.1]
            exact h2 o s n hs this.2
          · rw [mapGet_set_ne ho] at hget
            have hinvn := h2 o s1 n hget hm
            have hn : n ≠ new := by
              intro he
              subst he
              rw [hInv] at hinvn
              injection hinvn with hinvn
              exact ho hinvn.symm
            rw [mapGet_remove_ne hn]
            exact hinvn

theorem rewriteRemove_not_mem {db : DB} (h : rewritesConsistent db) (new : String) :
    ∀ o s, mapGet (db.rewriteRemove new).rewrites o = some s → new ∉ s := by
  intro o s hget hmem
  have hc := rewriteRemove_consistent h new
  have := hc.1.2.2.2.2 o s new hget hmem
  rw [hc.2] at this
  cases this

theorem rewriteInsert_consistent {db : DB} (h : rewritesConsistent db) (new old : String)
    (hnone : mapGet db.inv_rewrites new = none)
    (hnm : ∀ o s, mapGet db.rewrites o = some s → new ∉ s) :
    rewritesConsistent (db.rewriteInsert new old) ∧
    mapGet (db.rewriteInsert new old).inv_rewrites new = some old ∧
    ∃ s, mapGet (db.rewriteInsert new old).rewrites old = some s ∧ new ∈ s := by
  obtain ⟨hnr, hni, hsn, h1, h2⟩ := h
  unfold DB.rewriteInsert
  refine ⟨⟨mapNodup_set hnr, mapNodup_set hni, ?_, ?_, ?_⟩, mapGet_set_self,
    ⟨setInsert ((mapGet db.rewrites old).getD []) new, mapGet_set_self, mem_setInsert_self _ _⟩⟩
  · intro o s1 hget
    by_cases ho : o = old
    · subst ho
      rw [mapGet_set_self] at hget
      injection hget with hget
      subst hget
      apply nodup_setInsert
      cases hg : mapGet db.rewrites o with
      | none => simp
      | some s0 => simpa using hsn o s0 hg
    · rw [mapGet_set_ne ho] at hget
      exact hsn o s1 hget
  · intro n o hget
    by_cases hn : n = new
    · subst hn
      rw [mapGet_set_self] at hget
      injection hget with hget
      subst hget
      exact ⟨_, mapGet_set_self, mem_setInsert_self _ _⟩
    · rw [mapGet_set_ne hn] at hget
      obtain ⟨s2, hs2, hm2⟩ := h1 n o hget
      by_cases ho : o = old
      · subst ho
        refine ⟨_, mapGet_set_self, ?_⟩
        apply mem_setInsert_of_mem
        rw [hs2]
        exact hm2
      · exact ⟨s2, by rw [mapGet_set_ne ho]; exact hs2, hm2⟩
  · intro o s1 n hget hm
    by_cases ho : o = old
    · subst ho
      rw [mapGet_set_self] at hget
      injection hget with hget
      subst hget
      rcases mem_setInsert hm with hm1 | hm1
      · cases hg : mapGet db.rewrites o with
        | none =>
            rw [hg] at hm1
            simp at hm1
        | some s0 =>
            rw [hg] at hm1
            simp only [Option.getD_some] at hm1
            have hn : n ≠ new := fun he => hnm o s0 hg (he ▸ hm1)
            rw [mapGet_set_ne hn]
            exact h2 o s0 n hg hm1
      · subst hm1
        exact mapGet_set_self
    · rw [mapGet_set_ne ho] at hget
      have hinvn := h2 o s1 n hget hm
      have hn : n ≠ new := fun he => hnm o s1 hget (he ▸ hm)
      rw [mapGet_set_ne hn]
      exact hinvn

theorem rewrite_consistent {db : DB} (h : rewritesConsistent db) (new old : String) :
    rewritesConsistent (db.rewrite new old) := by
  unfold DB.rewrite
  have hc := rewriteRemove_consistent h new
  by_cases ho : lowercase old ≠ ""
  · simp only [if_pos ho]
    exact (rewriteInsert_consistent hc.1 new (lowercase old) hc.2
      (rewriteRemove_not_mem h new)).1
  · simp only [if_neg ho]
    exact hc.1

theorem rewritesConsistent_new (mid : ℚ × ℚ) (ymd : String) :
    rewritesConsistent (DB.new mid ymd) := by
  refine ⟨?_, ?_, ?_, ?_, ?_⟩ <;> simp [DB.new, mapNodup, mapGet]

theorem rewrite_seq_consistent (calls : List (String × String)) (mid : ℚ × ℚ) (ymd : String) :
    rewritesConsistent (calls.foldl (fun d c => d.rewrite c.1 c.2) (DB.new mid ymd)) := by
  suffices h : ∀ db : DB, rewritesConsistent db →
      rewritesConsistent (calls.foldl (fun d c => d.rewrite c.1 c.2) db) from
    h _ (rewritesConsistent_new mid ymd)
  induction calls with
  | nil => intro db hdb; simpa using hdb
  | cons c rest ih =>
      intro db hdb
      simpa using ih _ (rewrite_consistent hdb c.1 c.2)

/-- C9: after any sequence of `DB::rewrite` calls the rewrite maps are
    bidirectionally consistent (`new ∈ rewrites[inv_rewrites[new]]` and every
    set member points back); a further call with empty `old` leaves `new`
    with no mapping at all, and a call with nonempty `old` records the
    lower-cased `old`. -/
theorem rewrite_maps_consistent (calls : List (String × String)) (mid : ℚ × ℚ)
    (ymd : String) (new old : String) (hold : old ≠ "") :
    let db := calls.foldl (fun d c => d.rewrite c.1 c.2) (DB.new mid ymd)
    rewritesConsistent db ∧
    (mapGet (db.rewrite new "").inv_rewrites new = none ∧
      ∀ o s, mapGet (db.rewrite new "").rewrites o = some s → new ∉ s) ∧
    (mapGet (db.rewrite new old).inv_rewrites new = some (lowercase old) ∧
      ∃ s, mapGet (db.rewrite new old).rewrites (lowercase old) = some s ∧ new ∈ s) := by
  intro db
  have hdb : rewritesConsistent db := rewrite_seq_consistent calls mid ymd
  have hrem := rewriteRemove_consistent hdb new
  have hlow : lowercase old ≠ "" := by
    intro he
    apply hold
    cases old with
    | mk data =>
        cases data with
        | nil => rfl
        | cons c rest =>
            have hd : (lowercase (String.mk (c :: rest))).data = "".data :=
              congrArg String.data he
            simp [lowercase] at hd
  refine ⟨hdb, ⟨?_, ?_⟩, ?_⟩
  · show mapGet (DB.rewrite db new "").inv_rewrites new = none
    unfold DB.rewrite
    have : lowercase "" = "" := rfl
    rw [this]
    simp only [ne_eq, not_true_eq_false, if_false]
    exact hrem.2
  · show ∀ o s, mapGet (DB.rewrite db new "").rewrites o = some s → new ∉ s
    unfold DB.rewrite
    have : lowercase "" = "" := rfl
    rw [this]
    simp only [ne_eq, not_true_eq_false, if_false]
    exact rewriteRemove_not_mem hdb new
  · show mapGet (DB.rewrite db new old).inv_rewrites new = some (lowercase old) ∧
      ∃ s, mapGet (DB.rewrite db new old).rewrites (lowercase old) = some s ∧ new ∈ s
    unfold DB.rewrite
    simp only [if_pos hlow]
    have h := rewriteInsert_consistent hrem.1 new (lowercase old) hrem.2
      (rewriteRemove_not_mem hdb new)
    exact ⟨h.2.1, h.2.2⟩

/-- Witness for C9 at a concrete call sequence. -/
theorem rewrite_maps_consistent_witness :
    mapGet ((((DB.new (0, 0) "d").rewrite "a" "B").rewrite "c" "D").inv_rewrites) "c" =
      some "d" ∧
    mapGet ((((DB.new (0, 0) "d").rewrite "a" "B").rewrite "c" "").inv_rewrites) "c" =
      none := by
  have h := rewrite_maps_consistent [("a", "B")] (0, 0) "d" "c" "D" (by decide)
  have hlow : lowercase "D" = "d" := by decide
  refine ⟨?_, ?_⟩
  · have := h.2.2.1
    rw [hlow] at this
    exact this
  · exact h.2.1.1

/-! ### C1: the lock state machine (code evaluation) -/

/-- C1: the code's lock-acquire condition (database.rs:513) is inverted with
    respect to the spec and the code's own log messages.  At `now = 5` the
    lock "k" held by "a" since time 0 with ttl 10 is still live, yet a request
    by "b" is granted and replaces the entry; at `now = 20` the same lock has
    expired, yet the request by "b" is denied with the stale holder revealed. -/
theorem lock_condition_inverted :
    (DB.lock { DB.new (0, 50) "d" with locks := [("k", Entry.new 0 10 "a")] }
        true "k" "b" 5 3 5) =
      ({ DB.new (0, 50) "d" with locks := [("k", Entry.new 5 3 "b")] },
       CacheMsg.LockRes "k" "") ∧
    (DB.lock { DB.new (0, 50) "d" with locks := [("k", Entry.new 0 10 "a")] }
        true "k" "b" 20 3 20) =
      ({ DB.new (0, 50) "d" with locks := [("k", Entry.new 0 10 "a")] },
       CacheMsg.LockRes "k" "a") := by
  with_unfolding_all decide

/-! ### C7: `clean()` panics after no_store-only writes -/

/-- C7: a fresh database receiving `tell("a/b", "1", time 0, ttl 1,
    no_store = true)` holds the entry in memory but has no open store file for
    category "a"; once the entry times out, `clean()` reaches
    `self.files.get_mut(catname).unwrap()` and panics (modelled as `none`). -/
theorem clean_unwrap_panics :
    DB.tell (DB.new (0, 50) "d") "a/b" "1" 0 1 true 0 (0, 0) "" =
      some ({ DB.new (0, 50) "d" with
                entry_cats := [("a", [("b", Entry.new 0 1 "1")])] },
            [], [("a/b", Entry.new 0 1 "1", some 0)]) ∧
    DB.clean { DB.new (0, 50) "d" with
                entry_cats := [("a", [("b", Entry.new 0 1 "1")])] } 2 = none := by
  with_unfolding_all decide

/-! ### C2: store writes and update emission in `tell` -/

/-- C2 counterexample: a `no_store` tell of an unchanged value (`need_update`
    false, `no_store` true) emits no `UpdaterMsg::Update` at all — the code
    broadcasts iff `need_update` (database.rs:433), not iff
    `need_update ∨ no_store` as claimed. -/
theorem tell_no_store_not_broadcast :
    DB.tell { DB.new (0, 50) "d" with
                entry_cats := [("a", [("b", Entry.new 1 0 "v")])] }
        "a/b" "v" 5 0 true 7 (0, 0) "" =
      some ({ DB.new (0, 50) "d" with
                entry_cats := [("a", [("b", Entry.new 5 0 "v")])] },
            [], []) := by
  with_unfolding_all decide

theorem construct_key_inj {c1 c2 : String} (subkey : String)
    (h : construct_key c1 subkey = construct_key c2 subkey) : c1 = c2 := by
  have hd := congrArg String.data h
  have hemp : ("" : String).data = [] := rfl
  have hsl : ("/" : String).data = ['/'] := rfl
  by_cases h1 : c1 = "nocat" <;> by_cases h2 : c2 = "nocat"
  · rw [h1, h2]
  · rw [construct_key, construct_key, if_pos h1, if_pos h1, if_neg h2, if_neg h2] at hd
    simp only [String.data_append, hemp, hsl] at hd
    have hl := congrArg List.length hd
    simp only [List.length_append, List.length_nil, List.length_cons] at hl
    omega
  · rw [construct_key, construct_key, if_pos h2, if_pos h2, if_neg h1, if_neg h1] at hd
    simp only [String.data_append, hemp, hsl] at hd
    have hl := congrArg List.length hd
    simp only [List.length_append, List.length_nil, List.length_cons] at hl
    omega
  · rw [construct_key, construct_key, if_neg h1, if_neg h1, if_neg h2, if_neg h2] at hd
    simp only [String.data_append, hsl] at hd
    have hd2 := (List.append_left_inj subkey.data).mp hd
    have hd3 := (List.append_left_inj ['/']).mp hd2
    exact String.ext hd3

theorem tellCat_saves (db : DB) (cat subkey val : String) (time ttl : ℚ)
    (no_store : Bool) (src : ClientAddr) :
    (db.tellCat cat subkey val time ttl no_store src).2.1 =
      if db.needUpdate cat subkey val && !no_store then
        [(cat, subkey, Entry.new time ttl val)]
      else [] := by
  unfold DB.tellCat
  cases hnu : db.needUpdate cat subkey val <;> cases no_store <;> simp

theorem tellCat_upds (db : DB) (cat subkey val : String) (time ttl : ℚ)
    (no_store : Bool) (src : ClientAddr) :
    (db.tellCat cat subkey val time ttl no_store src).2.2 =
      if db.needUpdate cat subkey val then
        [(construct_key cat subkey, Entry.new time ttl val, some src)]
      else [] := by
  unfold DB.tellCat
  cases hnu : db.needUpdate cat subkey val <;> cases no_store <;> simp

theorem tellCat_state (db : DB) (cat subkey val : String) (time ttl : ℚ)
    (no_store : Bool) (src : ClientAddr) :
    (db.tellCat cat subkey val time ttl no_store src).1.entry_cats =
      mapSet db.entry_cats cat
        (mapSet ((mapGet db.entry_cats cat).getD []) subkey (Entry.new time ttl val)) ∧
    (db.tellCat cat subkey val time ttl no_store src).1.rewrites = db.rewrites ∧
    (db.tellCat cat subkey val time ttl no_store src).1.inv_rewrites = db.inv_rewrites ∧
    (db.tellCat cat subkey val time ttl no_store src).1.locks = db.locks ∧
    (db.tellCat cat subkey val time ttl no_store src).1.midnights = db.midnights ∧
    (db.tellCat cat subkey val time ttl no_store src).1.ymd_path = db.ymd_path := by
  unfold DB.tellCat
  cases hnu : db.needUpdate cat subkey val <;> cases no_store <;> simp

theorem tellCat_files_no_update (db : DB) (cat subkey val : String) (time ttl : ℚ)
    (no_store : Bool) (src : ClientAddr) (h : db.needUpdate cat subkey val = false) :
    (db.tellCat cat subkey val time ttl no_store src).1.files = db.files := by
  unfold DB.tellCat
  rw [h]
  cases no_store <;> simp

theorem needUpdate_after_tellCat (db : DB) (cat cat' subkey subkey2 val val2 : String)
    (time ttl : ℚ) (no_store : Bool) (src : ClientAddr) (h : cat ≠ cat') :
    (db.tellCat cat' subkey val time ttl no_store src).1.needUpdate cat subkey2 val2 =
      db.needUpdate cat subkey2 val2 := by
  unfold DB.needUpdate
  rw [(tellCat_state db cat' subkey val time ttl no_store src).1,
    mapGet_set_ne h]

theorem tellCats_saves_cats (cats : List String) :
    ∀ (db : DB) (subkey val : String) (time ttl : ℚ) (no_store : Bool) (src : ClientAddr)
      (ev : SaveEv), ev ∈ (db.tellCats cats subkey val time ttl no_store src).2.1 →
      ev.1 ∈ cats := by
  induction cats with
  | nil => intro db _ _ _ _ _ _ ev hev; simp [DB.tellCats] at hev
  | cons c rest ih =>
      intro db subkey val time ttl no_store src ev hev
      simp only [DB.tellCats, List.mem_append] at hev
      rcases hev with hev | hev
      · rw [tellCat_saves] at hev
        by_cases hnu : db.needUpdate c subkey val && !no_store
        · rw [if_pos hnu] at hev
          simp only [List.mem_singleton] at hev
          subst hev
          simp
        · rw [if_neg hnu] at hev
          cases hev
      · exact List.mem_cons_of_mem _ (ih _ _ _ _ _ _ _ _ hev)

theorem tellCats_upds_cats (cats : List String) :
    ∀ (db : DB) (subkey val : String) (time ttl : ℚ) (no_store : Bool) (src : ClientAddr)
      (ev : UpdateEv), ev ∈ (db.tellCats cats subkey val time ttl no_store src).2.2 →
      ∃ c ∈ cats, ev.1 = construct_key c subkey := by
  induction cats with
  | nil => intro db _ _ _ _ _ _ ev hev; simp [DB.tellCats] at hev
  | cons c rest ih =>
      intro db subkey val time ttl no_store src ev hev
      simp only [DB.tellCats, List.mem_append] at hev
      rcases hev with hev | hev
      · rw [tellCat_upds] at hev
        by_cases hnu : db.needUpdate c subkey val = true
        · rw [if_pos hnu] at hev
          simp only [List.mem_singleton] at hev
          subst hev
          exact ⟨c, by simp⟩
        · rw [if_neg hnu] at hev
          cases hev
      · obtain ⟨c', hc', he⟩ := ih _ _ _ _ _ _ _ _ hev
        exact ⟨c', List.mem_cons_of_mem _ hc', he⟩

theorem tellCats_events (cats : List String) :
    ∀ (db : DB), cats.Nodup →
      ∀ (subkey val : String) (time ttl : ℚ) (no_store : Bool) (src : ClientAddr),
      ∀ c ∈ cats,
      ((c, subkey, Entry.new time ttl val) ∈
          (db.tellCats cats subkey val time ttl no_store src).2.1 ↔
        db.needUpdate c subkey val = true ∧ no_store = false) ∧
      ((construct_key c subkey, Entry.new time ttl val, some src) ∈
          (db.tellCats cats subkey val time ttl no_store src).2.2 ↔
        db.needUpdate c subkey val = true) := by
  induction cats with
  | nil => intro db _ _ _ _ _ _ _ c hc; cases hc
  | cons c0 rest ih =>
      intro db hnd subkey val time ttl no_store src c hc
      have hnd0 : c0 ∉ rest := (List.nodup_cons.mp hnd).1
      have hndr : rest.Nodup := (List.nodup_cons.mp hnd).2
      simp only [DB.tellCats, List.mem_append]
      rcases List.mem_cons.mp hc with hceq | hcr
      · subst hceq
        constructor
        · constructor
          · rintro (hev | hev)
            · rw [tellCat_saves] at hev
              by_cases hnu : db.needUpdate c subkey val && !no_store
              · simp only [Bool.and_eq_true, Bool.not_eq_true'] at hnu
                exact ⟨hnu.1, hnu.2⟩
              · rw [if_neg hnu] at hev
                cases hev
            · exact absurd (tellCats_saves_cats rest _ _ _ _ _ _ _ _ hev) hnd0
          · rintro ⟨h1, h2⟩
            left
            rw [tellCat_saves, h1, h2]
            simp
        · constructor
          · rintro (hev | hev)
            · rw [tellCat_upds] at hev
              by_cases hnu : db.needUpdate c subkey val = true
              · exact hnu
              · rw [if_neg hnu] at hev
                cases hev
            · obtain ⟨c', hc', he⟩ := tellCats_upds_cats rest _ _ _ _ _ _ _ _ hev
              exact absurd (construct_key_inj subkey he ▸ hc') hnd0
          · intro h1
            left
            rw [tellCat_upds, h1]
            simp
      · have hne : c ≠ c0 := fun he => hnd0 (he ▸ hcr)
        have hih := ih ((db.tellCat c0 subkey val time ttl no_store src).1) hndr
          subkey val time ttl no_store src c hcr
        rw [needUpdate_after_tellCat db c c0 subkey subkey val val time ttl no_store src hne]
          at hih
        constructor
        · constructor
          · rintro (hev | hev)
            · rw [tellCat_saves] at hev
              by_cases hnu : db.needUpdate c0 subkey val && !no_store
              · rw [if_pos hnu] at hev
                simp only [List.mem_singleton, Prod.mk.injEq] at hev
                exact absurd hev.1 hne
              · rw [if_neg hnu] at hev
                cases hev
            · exact hih.1.mp hev
          · intro h1
            right
            exact hih.1.mpr h1
        · constructor
          · rintro (hev | hev)
            · rw [tellCat_upds] at hev
              by_cases hnu : db.needUpdate c0 subkey val = true
              · rw [if_pos hnu] at hev
                simp only [List.mem_singleton, Prod.mk.injEq] at hev
                exact absurd (construct_key_inj subkey hev.1) hne
              · rw [if_neg hnu] at hev
                cases hev
            · exact hih.2.mp hev
          · intro h1
            right
            exact hih.2.mpr h1

theorem rollover_fields {db : DB} {nm : ℚ × ℚ} {ny : String} {db1 : DB}
    (h : db.rollover nm ny = some db1) :
    db1.entry_cats = db.entry_cats ∧ db1.rewrites = db.rewrites ∧
    db1.inv_rewrites = db.inv_rewrites ∧ db1.locks = db.locks := by
  unfold DB.rollover at h
  simp only [Option.bind_eq_bind, Option.bind_eq_some, Option.some_inj] at h
  obtain ⟨nf, hnf, h⟩ := h
  subst h
  exact ⟨rfl, rfl, rfl, rfl⟩

/-- C2 (amended): in `DB::tell`, for each mirror category `c` the entry is
    persisted iff `need_update ∧ ¬no_store`, and an `UpdaterMsg::Update` for
    `c` is emitted iff `need_update` alone (not `need_update ∨ no_store`). -/
theorem tell_events {db : DB} {key val : String} {time ttl : ℚ} {no_store : Bool}
    {src : ClientAddr} {nm : ℚ × ℚ} {ny : String} {db' : DB} {saves : List SaveEv}
    {upds : List UpdateEv}
    (h : DB.tell db key val time ttl no_store src nm ny = some (db', saves, upds))
    (hnd : (db.newcats (split_key key).1).Nodup) :
    ∀ c ∈ db.newcats (split_key key).1,
      ((c, (split_key key).2, Entry.new time ttl val) ∈ saves ↔
        db.needUpdate c (split_key key).2 val = true ∧ no_store = false) ∧
      ((construct_key c (split_key key).2, Entry.new time ttl val, some src) ∈ upds ↔
        db.needUpdate c (split_key key).2 val = true) := by
  unfold DB.tell at h
  by_cases hmid : time ≥ db.midnights.2
  · rw [if_pos hmid] at h
    cases hro : db.rollover nm ny with
    | none =>
        rw [hro] at h
        cases h
    | some db1 =>
        rw [hro] at h
        simp only [Option.bind_eq_bind, Option.some_bind] at h
        obtain ⟨hec, hrw, hinv, hlk⟩ := rollover_fields hro
        have hcats : db1.newcats (split_key key).1 = db.newcats (split_key key).1 := by
          unfold DB.newcats
          rw [hrw]
        have hnudb : ∀ c sk v, db1.needUpdate c sk v = db.needUpdate c sk v := by
          intro c sk v
          unfold DB.needUpdate
          rw [hec]
        simp only [Option.some_inj] at h
        intro c hc
        have := tellCats_events (db1.newcats (split_key key).1) db1
          (hcats ▸ hnd) (split_key key).2 val time ttl no_store src c (hcats ▸ hc)
        rw [hnudb] at this
        have hs : saves = (db1.tellCats (db1.newcats (split_key key).1)
            (split_key key).2 val time ttl no_store src).2.1 := by
          rw [h]
        have hu : upds = (db1.tellCats (db1.newcats (split_key key).1)
            (split_key key).2 val time ttl no_store src).2.2 := by
          rw [h]
        rw [hs, hu]
        exact this
  · rw [if_neg hmid] at h
    simp only [Option.bind_eq_bind, Option.some_bind, Option.some_inj] at h
    intro c hc
    have := tellCats_events (db.newcats (split_key key).1) db hnd
      (split_key key).2 val time ttl no_store src c hc
    have hs : saves = (db.tellCats (db.newcats (split_key key).1)
        (split_key key).2 val time ttl no_store src).2.1 := by
      rw [h]
    have hu : upds = (db.tellCats (db.newcats (split_key key).1)
        (split_key key).2 val time ttl no_store src).2.2 := by
      rw [h]
    rw [hs, hu]
    exact this

/-- Witness for the amended C2: a fresh value is both saved and broadcast, at
    a category without rewrites. -/
theorem tell_events_witness :
    (("a", "b", Entry.new 3 0 "v") : SaveEv) ∈ [(("a", "b", Entry.new 3 0 "v") : SaveEv)] ∧
    (("a/b", Entry.new 3 0 "v", some 7) : UpdateEv) ∈
      [(("a/b", Entry.new 3 0 "v", some 7) : UpdateEv)] := by
  have htell : DB.tell (DB.new (0, 50) "d") "a/b" "v" 3 0 false 7 (0, 0) "" =
      some ({ entry_cats := [("a", [("b", Entry.new 3 0 "v")])],
              files := [("a", [("b", Entry.new 3 0 "v")])],
              locks := [], rewrites := [], inv_rewrites := [],
              midnights := (0, 50), ymd_path := "d" },
            [("a", "b", Entry.new 3 0 "v")],
            [("a/b", Entry.new 3 0 "v", some 7)]) := by
    with_unfolding_all decide
  have h := tell_events htell (by decide) "a" (by decide)
  have hsk2 : (split_key "a/b").2 = "b" := by decide
  have hck : construct_key "a" "b" = "a/b" := by decide
  constructor
  · have hm := h.1.mpr ⟨by decide, rfl⟩
    rwa [hsk2] at hm
  · have hm := h.2.mpr (by decide)
    rw [hsk2] at hm
    rwa [hck] at hm

/-! ### C6: same-value tells only refresh time and ttl -/

theorem Entry.new_eq_refresh {e : Entry} {val : String} (hv : e.value = val)
    (hx : e.expired = false) (hne : val ≠ "") (time ttl : ℚ) :
    Entry.new time ttl val = { e with time := time, ttl := ttl } := by
  cases e with
  | mk t l x v =>
      simp only at hv hx
      subst hv
      subst hx
      unfold Entry.new
      rw [beq_eq_false_iff_ne.mpr hne]

theorem tellCat_same_value {db : DB} {cat subkey val : String} {e : Entry}
    (hget : mapGet ((mapGet db.entry_cats cat).getD []) subkey = some e)
    (hv : e.value = val) (hx : e.expired = false) (time ttl : ℚ) (no_store : Bool)
    (src : ClientAddr) :
    db.tellCat cat subkey val time ttl no_store src =
      ({ db with entry_cats := (mapSet db.entry_cats cat
          (mapSet ((mapGet db.entry_cats cat).getD []) subkey (Entry.new time ttl val))) },
       [], []) := by
  have hnu : db.needUpdate cat subkey val = false := by
    unfold DB.needUpdate
    rw [hget]
    simp [hv, hx]
  unfold DB.tellCat
  rw [hnu]
  simp

theorem tellCats_same_value (cats : List String) :
    ∀ (db : DB) (subkey val : String) (time ttl : ℚ) (no_store : Bool) (src : ClientAddr),
      val ≠ "" →
      (∀ c ∈ cats, ∃ e, mapGet ((mapGet db.entry_cats c).getD []) subkey = some e ∧
          e.value = val ∧ e.expired = false) →
      ∃ db' : DB, db.tellCats cats subkey val time ttl no_store src = (db', [], []) ∧
        db'.files = db.files ∧ db'.locks = db.locks ∧ db'.rewrites = db.rewrites ∧
        db'.inv_rewrites = db.inv_rewrites ∧ db'.midnights = db.midnights ∧
        db'.ymd_path = db.ymd_path ∧
        (∀ c, c ∉ cats → mapGet db'.entry_cats c = mapGet db.entry_cats c) ∧
        (∀ c sub, sub ≠ subkey →
            mapGet ((mapGet db'.entry_cats c).getD []) sub =
            mapGet ((mapGet db.entry_cats c).getD []) sub) ∧
        (∀ c ∈ cats, ∀ e, mapGet ((mapGet db.entry_cats c).getD []) subkey = some e →
            mapGet ((mapGet db'.entry_cats c).getD []) subkey =
              some { e with time := time, ttl := ttl }) := by
  induction cats with
  | nil =>
      intro db subkey val time ttl no_store src hne hsame
      exact ⟨db, rfl, rfl, rfl, rfl, rfl, rfl, rfl, fun c _ => rfl,
        fun c sub _ => rfl, fun c hc => absurd hc (List.not_mem_nil c)⟩
  | cons c0 rest ih =>
      intro db subkey val time ttl no_store src hne hsame
      obtain ⟨e0, hget0, hv0, hx0⟩ := hsame c0 (List.mem_cons_self c0 rest)
      have htc := tellCat_same_value hget0 hv0 hx0 time ttl no_store src
      set eNew := Entry.new time ttl val with heNew
      set dbA : DB := { db with entry_cats := (mapSet db.entry_cats c0
          (mapSet ((mapGet db.entry_cats c0).getD []) subkey eNew)) } with hdbA
      have f1 : ∀ c, c ≠ c0 → mapGet dbA.entry_cats c = mapGet db.entry_cats c := by
        intro c hc
        rw [hdbA]
        exact mapGet_set_ne hc
      have f2 : mapGet dbA.entry_cats c0 =
          some (mapSet ((mapGet db.entry_cats c0).getD []) subkey eNew) := by
        rw [hdbA]
        exact mapGet_set_self
      have f4 : mapGet ((mapGet dbA.entry_cats c0).getD []) subkey = some eNew := by
        rw [f2]
        exact mapGet_set_self
      have f3 : ∀ c sub, sub ≠ subkey →
          mapGet ((mapGet dbA.entry_cats c).getD []) sub =
          mapGet ((mapGet db.entry_cats c).getD []) sub := by
        intro c sub hsub
        by_cases hc : c = c0
        · subst hc
          rw [f2]
          simp only [Option.getD_some]
          exact mapGet_set_ne hsub
        · rw [f1 c hc]
      have hxNew : eNew.expired = false := by
        rw [heNew]
        simp [Entry.new, beq_eq_false_iff_ne, hne]
      have hsameA : ∀ c ∈ rest, ∃ e,
          mapGet ((mapGet dbA.entry_cats c).getD []) subkey = some e ∧
          e.value = val ∧ e.expired = false := by
        intro c hc
        by_cases hcc : c = c0
        · subst hcc
          exact ⟨eNew, f4, rfl, hxNew⟩
        · obtain ⟨e, hg, hv, hx⟩ := hsame c (List.mem_cons_of_mem c0 hc)
          rw [f1 c hcc]
          exact ⟨e, hg, hv, hx⟩
      obtain ⟨db'', hrun, hfiles, hlocks, hrw, hinv, hmid, hymd, hout, hsub, hfin⟩ :=
        ih dbA subkey val time ttl no_store src hne hsameA
      refine ⟨db'', ?_, ?_, ?_, ?_, ?_, ?_, ?_, ?_, ?_, ?_⟩
      · show db.tellCats (c0 :: rest) subkey val time ttl no_store src = (db'', [], [])
        unfold DB.tellCats
        rw [htc]
        simp only []
        rw [hrun]
        simp
      · rw [hfiles, hdbA]
      · rw [hlocks, hdbA]
      · rw [hrw, hdbA]
      · rw [hinv, hdbA]
      · rw [hmid, hdbA]
      · rw [hymd, hdbA]
      · intro c hc
        have hc0 : c ≠ c0 := fun he => hc (he ▸ List.mem_cons_self c0 rest)
        have hcr : c ∉ rest := fun hr => hc (List.mem_cons_of_mem c0 hr)
        rw [hout c hcr, f1 c hc0]
      · intro c sub hsubne
        rw [hsub c sub hsubne, f3 c sub hsubne]
      · intro c hc e hget
        by_cases hcc : c = c0
        · subst hcc
          have he0 : e = e0 := by
            rw [hget0] at hget
            injection hget with hinj
            exact hinj.symm
          subst he0
          have hrefresh : eNew = { e with time := time, ttl := ttl } :=
            Entry.new_eq_refresh hv0 hx0 hne time ttl
          by_cases hcr : c ∈ rest
          · have := hfin c hcr eNew f4
            rw [this]
            rw [hrefresh]
          · have hunch := hout c hcr
            have : mapGet ((mapGet db''.entry_cats c).getD []) subkey = some eNew := by
              rw [hunch]
              exact f4
            rw [this, hrefresh]
        · have hcr : c ∈ rest := by
            rcases List.mem_cons.mp hc with h | h
            · exact absurd h hcc
            · exact h
          apply hfin c hcr e
          rw [f1 c hcc]
          exact hget

/-- C6: a `tell` whose value is already held unexpired in every affected
    category (with `no_store = false` and no rollover due) performs no store
    write, emits no update, and only refreshes `time`/`ttl` of the affected
    entries, leaving value and expired flag (and every other key, category and
    field) unchanged. -/
theorem tell_same_value (db : DB) (key val : String) (time ttl : ℚ) (src : ClientAddr)
    (nm : ℚ × ℚ) (ny : String)
    (hmid : ¬ time ≥ db.midnights.2)
    (hsame : ∀ c ∈ db.newcats (split_key key).1,
        ∃ e, mapGet ((mapGet db.entry_cats c).getD []) (split_key key).2 = some e ∧
          e.value = val ∧ e.expired = false ∧ entryInv e) :
    ∃ db' : DB, DB.tell db key val time ttl false src nm ny = some (db', [], []) ∧
      db'.files = db.files ∧ db'.locks = db.locks ∧ db'.rewrites = db.rewrites ∧
      db'.inv_rewrites = db.inv_rewrites ∧ db'.midnights = db.midnights ∧
      db'.ymd_path = db.ymd_path ∧
      (∀ c, c ∉ db.newcats (split_key key).1 →
          mapGet db'.entry_cats c = mapGet db.entry_cats c) ∧
      (∀ c sub, sub ≠ (split_key key).2 →
          mapGet ((mapGet db'.entry_cats c).getD []) sub =
          mapGet ((mapGet db.entry_cats c).getD []) sub) ∧
      (∀ c ∈ db.newcats (split_key key).1, ∀ e,
          mapGet ((mapGet db.entry_cats c).getD []) (split_key key).2 = some e →
          mapGet ((mapGet db'.entry_cats c).getD []) (split_key key).2 =
            some { e with time := time, ttl := ttl }) := by
  have hne : val ≠ "" := by
    obtain ⟨e, _, hv, hx, hinv⟩ := hsame (split_key key).1
      (by unfold DB.newcats; exact List.mem_cons_self _ _)
    intro hval
    subst hval
    rw [hinv (by rw [hv])] at hx
    cases hx
  obtain ⟨db', hrun, hrest⟩ := tellCats_same_value (db.newcats (split_key key).1) db
    (split_key key).2 val time ttl false src hne
    (fun c hc => (hsame c hc).imp (fun e he => ⟨he.1, he.2.1, he.2.2.1⟩))
  refine ⟨db', ?_, hrest⟩
  unfold DB.tell
  rw [if_neg hmid]
  simp only [Option.bind_eq_bind, Option.some_bind, Option.some_inj]
  exact hrun

/-- Witness for C6 at a concrete single-category state. -/
theorem tell_same_value_witness :
    ∃ db' : DB, DB.tell { DB.new (0, 50) "d" with
        entry_cats := [("a", [("b", Entry.new 1 2 "v")])] }
      "a/b" "v" 5 7 false 3 (0, 0) "" = some (db', [], []) := by
  have h := tell_same_value
    { DB.new (0, 50) "d" with entry_cats := [("a", [("b", Entry.new 1 2 "v")])] }
    "a/b" "v" 5 7 3 (0, 0) ""
    (by with_unfolding_all decide)
    (by
      intro c hc
      have hl : ({ DB.new (0, 50) "d" with
          entry_cats := [("a", [("b", Entry.new 1 2 "v")])] } : DB).newcats
          (split_key "a/b").1 = ["a"] := by with_unfolding_all decide
      rw [hl] at hc
      have hc' : c = "a" := by simpa using hc
      subst hc'
      refine ⟨Entry.new 1 2 "v", by with_unfolding_all decide, by decide, ?_, ?_⟩
      · with_unfolding_all decide
      · intro habs
        exact absurd habs (by decide))
  obtain ⟨db', hrun, _⟩ := h
  exact ⟨db', hrun⟩

/-! ### C8: the `clean()` sweep -/

theorem cleanEntry_of_expired {e : Entry} (catname : String) (nowv : ℚ)
    (files : List (String × List FileRec)) (sub : String) (h : e.expired = true) :
    DB.cleanEntry catname nowv files sub e = some ((sub, e), files, [], []) := by
  unfold DB.cleanEntry
  rw [h]
  simp

theorem cleanEntry_of_live {e : Entry} (catname : String) (nowv : ℚ)
    (files : List (String × List FileRec)) (sub : String) (h : e.expired = false)
    (h2 : ¬(e.ttl ≠ 0 ∧ e.time + e.ttl < nowv)) :
    DB.cleanEntry catname nowv files sub e = some ((sub, e), files, [], []) := by
  unfold DB.cleanEntry
  rw [h]
  simp only [Bool.false_eq_true, if_false]
  rw [if_neg h2]

theorem cleanEntry_of_expiring {e : Entry} {recs : List FileRec} (catname : String)
    (nowv : ℚ) (files : List (String × List FileRec)) (sub : String)
    (h : e.expired = false) (h2 : e.ttl ≠ 0 ∧ e.time + e.ttl < nowv)
    (hf : mapGet files catname = some recs) :
    DB.cleanEntry catname nowv files sub e =
      some ((sub, e.mark_expired),
            mapSet files catname (recs ++ [(sub, e.mark_expired)]),
            [(construct_key catname sub, e.mark_expired, none)],
            [(catname, sub, e.mark_expired)]) := by
  unfold DB.cleanEntry
  rw [h]
  simp only [Bool.false_eq_true, if_false]
  rw [if_pos h2, hf]
  rfl

theorem cleanEntry_of_expiring_nofile {e : Entry} (catname : String)
    (nowv : ℚ) (files : List (String × List FileRec)) (sub : String)
    (h : e.expired = false) (h2 : e.ttl ≠ 0 ∧ e.time + e.ttl < nowv)
    (hf : mapGet files catname = none) :
    DB.cleanEntry catname nowv files sub e = none := by
  unfold DB.cleanEntry
  rw [h]
  simp only [Bool.false_eq_true, if_false]
  rw [if_pos h2, hf]

theorem cleanCat_spec (catname : String) (nowv : ℚ) :
    ∀ (submap : List (String × Entry)) (files : List (String × List FileRec))
      (r : List (String × Entry) × List (String × List FileRec) ×
           List UpdateEv × List SaveEv),
      DB.cleanCat catname nowv submap files = some r →
      r.1 = submap.map (fun se => (se.1, cleanedEntry nowv se.2)) ∧
      r.2.2.1 = (submap.filter (isExpiring nowv)).map
          (fun se => (construct_key catname se.1, se.2.mark_expired, none)) ∧
      r.2.2.2 = (submap.filter (isExpiring nowv)).map
          (fun se => (catname, se.1, se.2.mark_expired)) := by
  intro submap
  induction submap with
  | nil =>
      intro files r h
      simp only [DB.cleanCat, Option.some_inj] at h
      subst h
      simp
  | cons se rest ih =>
      intro files r h
      obtain ⟨sub, e⟩ := se
      by_cases h1 : e.expired = true
      · rw [DB.cleanCat] at h
        rw [cleanEntry_of_expired catname nowv files sub h1] at h
        simp only [Option.bind_eq_bind, Option.some_bind] at h
        cases hr : DB.cleanCat catname nowv rest files with
        | none =>
            rw [hr] at h
            cases h
        | some r2 =>
            rw [hr] at h
            simp only [Option.some_bind, Option.some_inj] at h
            obtain ⟨hc1, hc2, hc3⟩ := ih files r2 hr
            subst h
            refine ⟨?_, ?_, ?_⟩
            · simp [hc1, cleanedEntry, h1]
            · simp [hc2, isExpiring, h1]
            · simp [hc3, isExpiring, h1]
      · have h1f : e.expired = false := by
          cases he : e.expired
          · rfl
          · exact absurd he h1
        by_cases h2 : e.ttl ≠ 0 ∧ e.time + e.ttl < nowv
        · cases hfg : mapGet files catname with
          | none =>
              rw [DB.cleanCat] at h
              rw [cleanEntry_of_expiring_nofile catname nowv files sub h1f h2 hfg] at h
              simp at h
          | some recs =>
              rw [DB.cleanCat] at h
              rw [cleanEntry_of_expiring catname nowv files sub h1f h2 hfg] at h
              simp only [Option.bind_eq_bind, Option.some_bind] at h
              cases hr : DB.cleanCat catname nowv rest
                  (mapSet files catname (recs ++ [(sub, e.mark_expired)])) with
              | none =>
                  rw [hr] at h
                  cases h
              | some r2 =>
                  rw [hr] at h
                  simp only [Option.some_bind, Option.some_inj] at h
                  obtain ⟨hc1, hc2, hc3⟩ := ih _ r2 hr
                  subst h
                  refine ⟨?_, ?_, ?_⟩
                  · simp [hc1, cleanedEntry, h1f, h2]
                  · simp [hc2, isExpiring, h1f, h2]
                  · simp [hc3, isExpiring, h1f, h2]
        · rw [DB.cleanCat] at h
          rw [cleanEntry_of_live catname nowv files sub h1f h2] at h
          simp only [Option.bind_eq_bind, Option.some_bind] at h
          cases hr : DB.cleanCat catname nowv rest files with
          | none =>
              rw [hr] at h
              cases h
          | some r2 =>
              rw [hr] at h
              simp only [Option.some_bind, Option.some_inj] at h
              obtain ⟨hc1, hc2, hc3⟩ := ih files r2 hr
              subst h
              refine ⟨?_, ?_, ?_⟩
              · simp [hc1, cleanedEntry, h1f, h2]
              · simp [hc2, isExpiring, h1f, h2]
              · simp [hc3, isExpiring, h1f, h2]

theorem cleanCats_spec (nowv : ℚ) :
    ∀ (cats : List (String × List (String × Entry)))
      (files : List (String × List FileRec))
      (r : List (String × List (String × Entry)) × List (String × List FileRec) ×
           List UpdateEv × List SaveEv),
      DB.cleanCats nowv cats files = some r →
      r.1 = cats.map (fun cs => (cs.1, cs.2.map (fun se => (se.1, cleanedEntry nowv se.2)))) ∧
      r.2.2.1 = cats.flatMap (fun cs => (cs.2.filter (isExpiring nowv)).map
          (fun se => (construct_key cs.1 se.1, se.2.mark_expired, none))) ∧
      r.2.2.2 = cats.flatMap (fun cs => (cs.2.filter (isExpiring nowv)).map
          (fun se => (cs.1, se.1, se.2.mark_expired))) := by
  intro cats
  induction cats with
  | nil =>
      intro files r h
      simp only [DB.cleanCats, Option.some_inj] at h
      subst h
      simp
  | cons cs rest ih =>
      intro files r h
      obtain ⟨catname, submap⟩ := cs
      rw [DB.cleanCats] at h
      cases hcc : DB.cleanCat catname nowv submap files with
      | none =>
          rw [hcc] at h
          simp at h
      | some rc =>
          obtain ⟨submap', files1, u1, s1⟩ := rc
          rw [hcc] at h
          simp only [Option.bind_eq_bind, Option.some_bind] at h
          cases hr : DB.cleanCats nowv rest files1 with
          | none =>
              rw [hr] at h
              cases h
          | some r2 =>
              rw [hr] at h
              simp only [Option.some_bind, Option.some_inj] at h
              obtain ⟨hc1, hc2, hc3⟩ := cleanCat_spec catname nowv submap files _ hcc
              obtain ⟨hd1, hd2, hd3⟩ := ih files1 r2 hr
              subst h
              simp only at hc1 hc2 hc3
              refine ⟨?_, ?_, ?_⟩
              · simp only [List.map_cons, List.cons.injEq]
                exact ⟨by rw [hc1], hd1⟩
              · simp only [List.flatMap_cons]
                rw [hc2, hd2]
              · simp only [List.flatMap_cons]
                rw [hc3, hd3]

theorem cleanedEntry_not_bad (nowv : ℚ) (e : Entry) :
    ¬((cleanedEntry nowv e).ttl ≠ 0 ∧
      (cleanedEntry nowv e).time + (cleanedEntry nowv e).ttl < nowv ∧
      (cleanedEntry nowv e).expired = false) := by
  unfold cleanedEntry
  by_cases h1 : e.expired
  · rw [if_pos h1]
    rintro ⟨_, _, hx⟩
    rw [hx] at h1
    cases h1
  · rw [if_neg h1]
    by_cases h2 : e.ttl ≠ 0 ∧ e.time + e.ttl < nowv
    · rw [if_pos h2]
      rintro ⟨_, _, hx⟩
      cases hx
    · rw [if_neg h2]
      rintro ⟨ha, hb, _⟩
      exact h2 ⟨ha, hb⟩

theorem mapGet_map_val {β γ : Type} (f : β → γ) :
    ∀ (m : List (String × β)) (k : String),
      mapGet (m.map (fun kv => (kv.1, f kv.2))) k = (mapGet m k).map f := by
  intro m
  induction m with
  | nil => intro k; simp [mapGet]
  | cons kv rest ih =>
      intro k
      obtain ⟨k0, v0⟩ := kv
      by_cases h : k0 = k <;> simp [mapGet, h, ih]

/-- C8: after `clean()` returns (without panicking), no stored entry has a
    nonzero elapsed TTL while still unexpired; and each entry the sweep
    expires produces exactly one `Update` with source `None` and exactly one
    persistence record of the expiry marker, in sweep order. -/
theorem clean_postcondition (db : DB) (nowv : ℚ) (db' : DB) (upds : List UpdateEv)
    (saves : List SaveEv) (h : DB.clean db nowv = some (db', upds, saves)) :
    (∀ cat submap subkey e, mapGet db'.entry_cats cat = some submap →
        mapGet submap subkey = some e →
        ¬(e.ttl ≠ 0 ∧ e.time + e.ttl < nowv ∧ e.expired = false)) ∧
    upds = (db.cleanExpiring nowv).map
        (fun ce => (construct_key ce.1 ce.2.1, ce.2.2.mark_expired, none)) ∧
    saves = (db.cleanExpiring nowv).map
        (fun ce => (ce.1, ce.2.1, ce.2.2.mark_expired)) := by
  unfold DB.clean at h
  cases hcc : DB.cleanCats nowv db.entry_cats db.files with
  | none =>
      rw [hcc] at h
      cases h
  | some r =>
      rw [hcc] at h
      simp only [Option.bind_eq_bind, Option.some_bind, Option.some_inj] at h
      obtain ⟨h1, h2, h3⟩ := cleanCats_spec nowv db.entry_cats db.files r hcc
      obtain ⟨cats', files', upds0, saves0⟩ := r
      dsimp only at h1 h2 h3
      injection h with ha hbc
      injection hbc with hb hc
      subst ha
      subst hb
      subst hc
      refine ⟨?_, ?_, ?_⟩
      · intro cat submap subkey e hgc hgs
        have hgc' : mapGet cats' cat = some submap := hgc
        rw [h1] at hgc'
        rw [mapGet_map_val
            (fun l : List (String × Entry) =>
              l.map (fun se => (se.1, cleanedEntry nowv se.2)))
            db.entry_cats cat] at hgc'
        cases hg0 : mapGet db.entry_cats cat with
        | none =>
            rw [hg0] at hgc'
            cases hgc'
        | some submap0 =>
            rw [hg0] at hgc'
            have hsm : submap = submap0.map (fun se => (se.1, cleanedEntry nowv se.2)) := by
              have hgc2 : some (submap0.map (fun se => (se.1, cleanedEntry nowv se.2))) =
                  some submap := hgc'
              injection hgc2 with hh
              exact hh.symm
            subst hsm
            rw [mapGet_map_val (cleanedEntry nowv) submap0 subkey] at hgs
            cases hg1 : mapGet submap0 subkey with
            | none =>
                rw [hg1] at hgs
                cases hgs
            | some e0 =>
                rw [hg1] at hgs
                have he : e = cleanedEntry nowv e0 := by
                  have hgs2 : some (cleanedEntry nowv e0) = some e := hgs
                  injection hgs2 with hh
                  exact hh.symm
                subst he
                exact cleanedEntry_not_bad nowv e0
      · show upds0 = _
        rw [h2]
        unfold DB.cleanExpiring
        rw [List.map_flatMap]
        apply congrArg
        funext a
        rw [List.map_map]
        rfl
      · show saves0 = _
        rw [h3]
        unfold DB.cleanExpiring
        rw [List.map_flatMap]
        apply congrArg
        funext a
        rw [List.map_map]
        rfl

/-- Witness for C8 at a concrete state with one expiring entry. -/
theorem clean_postcondition_witness :
    ([("a/b", (Entry.new 0 1 "x").mark_expired, none)] : List UpdateEv) =
      (DB.cleanExpiring { DB.new (0, 50) "d" with
          entry_cats := [("a", [("b", Entry.new 0 1 "x")])],
          files := [("a", [])] } 3).map
        (fun ce => (construct_key ce.1 ce.2.1, ce.2.2.mark_expired, none)) := by
  have h := clean_postcondition
    { DB.new (0, 50) "d" with
        entry_cats := [("a", [("b", Entry.new 0 1 "x")])], files := [("a", [])] }
    3
    { DB.new (0, 50) "d" with
        entry_cats := [("a", [("b", (Entry.new 0 1 "x").mark_expired)])],
        files := [("a", [("b", (Entry.new 0 1 "x").mark_expired)])] }
    [("a/b", (Entry.new 0 1 "x").mark_expired, none)]
    [("a", "b", (Entry.new 0 1 "x").mark_expired)]
    (by with_unfolding_all decide)
  exact h.2.1

/-! ### C10: history reply ordering -/

theorem histTimes_send_history (fs : HistFs) (mid : ℚ × ℚ) (ymd : String)
    (allDays : List String) (key : String) (fromv tov : ℚ) :
    histTimes (Store.send_history fs mid ymd allDays key fromv tov) =
      (if fromv ≥ mid.1 then [ymd] else allDays).flatMap
        (histPiece fs key fromv tov) := by
  rcases hsk : split_key key with ⟨catname, subkey⟩
  unfold Store.send_history histTimes histPiece
  rw [hsk]
  dsimp only
  rw [List.map_flatMap]
  apply congrArg
  funext path
  rw [List.map_filterMap]
  refine List.filterMap_congr ?_
  intro tv _
  by_cases h : fromv ≤ tv.1 ∧ tv.1 ≤ tov
  · rw [if_pos h, if_pos h]
    rfl
  · rw [if_neg h, if_neg h]
    rfl

/-- C10 counterexample: the store emits samples in file line order, so a day
    file whose records for the subkey carry decreasing timestamps yields an
    `AskHist` reply stream with decreasing times. -/
theorem send_history_unsorted_cex :
    ¬ (histTimes (Store.send_history histFsCex (0, 50) "d" [] "a/b" 0 10)).Sorted
        (· ≤ ·) := by
  with_unfolding_all decide

/-- C10 (amended): `send_history` emits the concatenation, over the scanned day
    paths in scan order, of each day file's matching samples in file line
    order; the reply times are non-decreasing provided each scanned file's
    relevant lines are time-sorted and no sample of an earlier-scanned day
    exceeds one of a later-scanned day. -/
theorem send_history_sorted (fs : HistFs) (mid : ℚ × ℚ) (ymd : String)
    (allDays : List String) (key : String) (fromv tov : ℚ)
    (hin : ∀ path ∈ (if fromv ≥ mid.1 then [ymd] else allDays),
        (histPiece fs key fromv tov path).Sorted (· ≤ ·))
    (hcross : (if fromv ≥ mid.1 then [ymd] else allDays).Pairwise
        (fun p q => ∀ a ∈ histPiece fs key fromv tov p,
            ∀ b ∈ histPiece fs key fromv tov q, a ≤ b)) :
    (histTimes (Store.send_history fs mid ymd allDays key fromv tov)).Sorted
        (· ≤ ·) := by
  rw [histTimes_send_history]
  have hj : (if fromv ≥ mid.1 then [ymd] else allDays).flatMap
        (histPiece fs key fromv tov)
      = ((if fromv ≥ mid.1 then [ymd] else allDays).map
          (histPiece fs key fromv tov)).flatten := by
    rw [List.flatMap]
  rw [hj, List.Sorted, List.pairwise_flatten]
  constructor
  · intro l hl
    obtain ⟨p, hp, hpe⟩ := List.mem_map.mp hl
    exact hpe ▸ hin p hp
  · exact (List.pairwise_map).mpr hcross

/-- Witness for C10 at a one-day filesystem whose records are time-sorted. -/
theorem send_history_sorted_witness :
    (histTimes (Store.send_history histFsW (0, 50) "d" [] "a/b" 0 10)).Sorted
        (· ≤ ·) :=
  send_history_sorted histFsW (0, 50) "d" [] "a/b" 0 10
    (by with_unfolding_all decide) (by with_unfolding_all decide)

/-! ### C4: totality of `CacheMsg::parse` -/

/-- C4: `CacheMsg::parse` is not total: on the line `"key$"` the regex matches
    with an empty value capture, and the `$` arm's byte slice `&val[1..]`
    (message.rs:138) is out of range, a panic. -/
theorem parse_dollar_empty_panics :
    CacheMsg.parse 0 "key$" = ParseOutcome.oob := by
  decide

/-! ### C3: round-trip of serialized messages — decimal digit lemmas -/

theorem natDigitsAux_spec :
    ∀ n fuel (acc : List Char), n < fuel →
      natDigitsAux fuel n acc = natDigits n ++ acc := by
  intro n
  induction n using Nat.strong_induction_on with
  | _ n ih =>
      intro fuel acc hf
      cases fuel with
      | zero => omega
      | succ f =>
          by_cases hn : n < 10
          · rw [natDigitsAux, if_pos hn]
            have hd : natDigits n = [Char.ofNat (n + 48)] := by
              unfold natDigits
              rw [natDigitsAux, if_pos hn]
            rw [hd]
            rfl
          · rw [natDigitsAux, if_neg hn]
            have h10 : n / 10 < n := Nat.div_lt_self (by omega) (by norm_num)
            rw [ih (n / 10) h10 f _ (by omega)]
            have hd : natDigits n = natDigits (n / 10) ++ [Char.ofNat (n % 10 + 48)] := by
              unfold natDigits
              rw [natDigitsAux, if_neg hn]
              rw [ih (n / 10) h10 n _ (by omega)]
              rfl
            rw [hd, List.append_assoc]
            rfl

theorem natDigits_lt10 (n : Nat) (h : n < 10) : natDigits n = [Char.ofNat (n + 48)] := by
  unfold natDigits
  rw [natDigitsAux, if_pos h]

theorem natDigits_split (n : Nat) (h : 10 ≤ n) :
    natDigits n = natDigits (n / 10) ++ [Char.ofNat (n % 10 + 48)] := by
  unfold natDigits
  rw [natDigitsAux, if_neg (by omega)]
  exact natDigitsAux_spec (n / 10) n _ (Nat.div_lt_self (by omega) (by norm_num))

theorem digitsToNat_append_singleton (xs : List Char) (c : Char) :
    digitsToNat (xs ++ [c]) = 10 * digitsToNat xs + (c.toNat - 48) := by
  unfold digitsToNat
  rw [List.foldl_append]
  rfl

theorem char_ofNat_toNat_digit (r : Nat) (h : r < 10) : (Char.ofNat (r + 48)).toNat = r + 48 := by
  interval_cases r <;> decide

theorem digit_char_isDigit (r : Nat) (h : r < 10) : (Char.ofNat (r + 48)).isDigit = true := by
  interval_cases r <;> decide

theorem digitsToNat_natDigits : ∀ n, digitsToNat (natDigits n) = n := by
  intro n
  induction n using Nat.strong_induction_on with
  | _ n ih =>
      by_cases hn : n < 10
      · rw [natDigits_lt10 n hn]
        show 10 * 0 + ((Char.ofNat (n + 48)).toNat - 48) = n
        rw [char_ofNat_toNat_digit n hn]
        omega
      · have h10 : n / 10 < n := Nat.div_lt_self (by omega) (by norm_num)
        rw [natDigits_split n (by omega), digitsToNat_append_singleton, ih (n / 10) h10,
            char_ofNat_toNat_digit (n % 10) (Nat.mod_lt _ (by omega))]
        omega

theorem natDigits_all_digit : ∀ n, ∀ c ∈ natDigits n, c.isDigit = true := by
  intro n
  induction n using Nat.strong_induction_on with
  | _ n ih =>
      intro c hc
      by_cases hn : n < 10
      · rw [natDigits_lt10 n hn] at hc
        rw [List.mem_singleton] at hc
        subst hc
        exact digit_char_isDigit n hn
      · rw [natDigits_split n (by omega)] at hc
        rcases List.mem_append.mp hc with h | h
        · exact ih (n / 10) (Nat.div_lt_self (by omega) (by norm_num)) c h
        · rw [List.mem_singleton] at h
          subst h
          exact digit_char_isDigit (n % 10) (Nat.mod_lt _ (by omega))

theorem natDigits_ne_nil (n : Nat) : natDigits n ≠ [] := by
  by_cases hn : n < 10
  · rw [natDigits_lt10 n hn]
    simp
  · rw [natDigits_split n (by omega)]
    simp

theorem natDigits_length_le : ∀ n k, 1 ≤ k → n < 10 ^ k → (natDigits n).length ≤ k := by
  intro n
  induction n using Nat.strong_induction_on with
  | _ n ih =>
      intro k hk hlt
      by_cases hn : n < 10
      · rw [natDigits_lt10 n hn]
        simpa using hk
      · have hk2 : 2 ≤ k := by
          by_contra hc
          have : k = 1 := by omega
          subst this
          simp at hlt
          omega
        have hpow : 10 ^ k = 10 ^ (k - 1) * 10 := by
          have : k - 1 + 1 = k := by omega
          calc 10 ^ k = 10 ^ (k - 1 + 1) := by rw [this]
            _ = 10 ^ (k - 1) * 10 := pow_succ 10 (k - 1)
        have hdiv : n / 10 < 10 ^ (k - 1) := by
          rw [Nat.div_lt_iff_lt_mul (by norm_num)]
          rw [hpow] at hlt
          exact hlt
        have := ih (n / 10) (Nat.div_lt_self (by omega) (by norm_num)) (k - 1) (by omega) hdiv
        rw [natDigits_split n (by omega), List.length_append, List.length_singleton]
        omega

theorem digitsToNat_replicate_zero (z : Nat) (ds : List Char) :
    digitsToNat (List.replicate z '0' ++ ds) = digitsToNat ds := by
  have hz : ∀ z, List.foldl (fun n c => 10 * n + (c.toNat - 48)) 0 (List.replicate z '0') = 0 := by
    intro z
    induction z with
    | zero => rfl
    | succ z ihz =>
        rw [List.replicate_succ, List.foldl_cons]
        simpa using ihz
  unfold digitsToNat
  rw [List.foldl_append, hz]

/-! ### C3: takeWhile/dropWhile helpers and numeral shape lemmas -/

theorem takeWhile_append_all {p : Char → Bool} :
    ∀ {xs : List Char} (ys : List Char), (∀ c ∈ xs, p c = true) →
      List.takeWhile p (xs ++ ys) = xs ++ List.takeWhile p ys := by
  intro xs
  induction xs with
  | nil => intro ys _; rfl
  | cons c t ih =>
      intro ys h
      rw [List.cons_append, List.takeWhile_cons, if_pos (h c (List.mem_cons_self c _))]
      rw [ih ys (fun c hc => h c (List.mem_cons_of_mem _ hc))]
      rfl

theorem dropWhile_append_all {p : Char → Bool} :
    ∀ {xs : List Char} (ys : List Char), (∀ c ∈ xs, p c = true) →
      List.dropWhile p (xs ++ ys) = List.dropWhile p ys := by
  intro xs
  induction xs with
  | nil => intro ys _; rfl
  | cons c t ih =>
      intro ys h
      rw [List.cons_append, List.dropWhile_cons, if_pos (h c (List.mem_cons_self c _))]
      exact ih ys (fun c hc => h c (List.mem_cons_of_mem _ hc))

theorem takeWhile_all {p : Char → Bool} {xs : List Char} (h : ∀ c ∈ xs, p c = true) :
    List.takeWhile p xs = xs := by
  have := @takeWhile_append_all p xs [] h
  simpa using this

theorem dropWhile_all {p : Char → Bool} {xs : List Char} (h : ∀ c ∈ xs, p c = true) :
    List.dropWhile p xs = [] := by
  have := @dropWhile_append_all p xs [] h
  simpa using this

theorem drop_length_takeWhile {p : Char → Bool} :
    ∀ xs : List Char, xs.drop (xs.takeWhile p).length = xs.dropWhile p := by
  intro xs
  induction xs with
  | nil => rfl
  | cons c t ih =>
      rw [List.takeWhile_cons, List.dropWhile_cons]
      by_cases h : p c = true
      · rw [if_pos h, if_pos h, List.length_cons, List.drop_succ_cons]
        exact ih
      · rw [if_neg h, if_neg h]
        rfl

theorem isNumCore_of_digits {ds : List Char} (hne : ds ≠ [])
    (hdig : ∀ c ∈ ds, c.isDigit = true) : isNumCore ds = true := by
  simp only [isNumCore]
  rw [takeWhile_all hdig, List.drop_length]
  cases ds with
  | nil => exact absurd rfl hne
  | cons c t => rfl

theorem isNumCore_of_digits_frac {ds fs : List Char} (hne : ds ≠ [])
    (hd : ∀ c ∈ ds, c.isDigit = true) (hf : ∀ c ∈ fs, c.isDigit = true) :
    isNumCore (ds ++ '.' :: fs) = true := by
  simp only [isNumCore]
  have ht : List.takeWhile Char.isDigit (ds ++ '.' :: fs) = ds := by
    rw [takeWhile_append_all _ hd, List.takeWhile_cons, if_neg (by decide), List.append_nil]
  rw [ht, List.drop_left]
  cases ds with
  | nil => exact absurd rfl hne
  | cons c t =>
      show (('.' == '.') && fs.all Char.isDigit) = true
      rw [show ('.' == '.') = true from rfl, Bool.true_and, List.all_eq_true]
      exact hf

theorem numCore_chars {cs : List Char} (h : isNumCore cs = true) :
    ∀ c ∈ cs, (c.isDigit || c == '.') = true := by
  simp only [isNumCore] at h
  rw [Bool.and_eq_true, drop_length_takeWhile] at h
  obtain ⟨-, h2⟩ := h
  intro c hc
  have hsplit : cs.takeWhile Char.isDigit ++ cs.dropWhile Char.isDigit = cs :=
    List.takeWhile_append_dropWhile _ _
  rw [← hsplit] at hc
  rcases List.mem_append.mp hc with hm | hm
  · rw [List.mem_takeWhile_imp hm, Bool.true_or]
  · cases hdw : cs.dropWhile Char.isDigit with
    | nil => rw [hdw] at hm; cases hm
    | cons c0 rest =>
        rw [hdw] at h2 hm
        have h2' : ((c0 == '.') && rest.all Char.isDigit) = true := h2
        rw [Bool.and_eq_true, beq_iff_eq] at h2'
        obtain ⟨he, hall⟩ := h2' 
        subst he
        rcases List.mem_cons.mp hm with he | hm2
        · subst he
          decide
        · rw [List.all_eq_true] at hall
          rw [hall c hm2, Bool.true_or]

theorem isTtlNum_of_numCore {cs : List Char} (h1 : isNumCore cs = true) : isTtlNum cs = true := by
  simp only [isTtlNum]
  rw [takeWhile_all (numCore_chars h1), List.drop_length, h1]
  rfl

theorem ttlNum_chars {cs : List Char} (h : isTtlNum cs = true) :
    ∀ c ∈ cs, (c.isDigit || c == '.' || c == 'e' || c == 'E' || c == '+' || c == '-') = true := by
  simp only [isTtlNum] at h
  rw [Bool.and_eq_true, drop_length_takeWhile] at h
  obtain ⟨h1, h2⟩ := h
  intro c hc
  have hsplit : cs.takeWhile (fun c => c.isDigit || c == '.') ++
      cs.dropWhile (fun c => c.isDigit || c == '.') = cs :=
    List.takeWhile_append_dropWhile _ _
  rw [← hsplit] at hc
  rcases List.mem_append.mp hc with hm | hm
  · have := List.mem_takeWhile_imp hm
    simp only at this
    rw [Bool.or_eq_true] at this
    rcases this with h' | h' <;> simp [h']
  · cases hdw : cs.dropWhile (fun c => c.isDigit || c == '.') with
    | nil => rw [hdw] at hm; cases hm
    | cons e rest =>
        rw [hdw] at h2 hm
        rw [Bool.and_eq_true] at h2
        obtain ⟨he, hrest⟩ := h2
        rcases List.mem_cons.mp hm with hce | hm2
        · subst hce
          rw [Bool.or_eq_true, beq_iff_eq, beq_iff_eq] at he
          rcases he with he | he <;> subst he <;> decide
        · cases hrest2 : rest with
          | nil => rw [hrest2] at hm2; cases hm2
          | cons c1 d =>
              rw [hrest2] at hrest hm2
              have hrest' : (if c1 = '+' || c1 = '-' then !d.isEmpty && d.all Char.isDigit
                  else !(c1 :: d).isEmpty && (c1 :: d).all Char.isDigit) = true := hrest
              by_cases hsg : (c1 = '+' || c1 = '-' : Bool) = true
              · rw [if_pos hsg] at hrest'
                rw [Bool.and_eq_true, List.all_eq_true] at hrest'
                rcases List.mem_cons.mp hm2 with hc1 | hm3
                · subst hc1
                  rw [Bool.or_eq_true, decide_eq_true_iff, decide_eq_true_iff] at hsg
                  rcases hsg with h' | h' <;> subst h' <;> decide
                · rw [hrest'.2 c hm3]
                  simp
              · rw [if_neg hsg] at hrest'
                rw [Bool.and_eq_true, List.all_eq_true] at hrest'
                rw [hrest'.2 c hm2]
                simp

/-! ### C3: `parseNum` recovers formatted decimals -/

theorem expEval_nil (b : ℚ) : expEval b [] = some b := rfl

theorem fracOf_nil : fracOf [] = [] := rfl

theorem fracOf_dot (fs : List Char) : fracOf ('.' :: fs) = fs := rfl

theorem parseNum_digits (ds : List Char) (hne : ds ≠ [])
    (hd : ∀ c ∈ ds, c.isDigit = true) :
    parseNum ds = some ((digitsToNat ds : ℚ)) := by
  have hall : ∀ c ∈ ds, (c.isDigit || c == '.') = true := fun c hc => by
    rw [hd c hc]
    rfl
  simp only [parseNum]
  rw [takeWhile_all hall, takeWhile_all hd, List.drop_length, fracOf_nil]
  rw [if_neg (fun hcon => hne hcon.1), if_neg (by decide), expEval_nil]
  rw [show digitsToNat [] = 0 from rfl]
  norm_num

theorem parseNum_digits_frac (ds fs : List Char) (hne : ds ≠ [])
    (hd : ∀ c ∈ ds, c.isDigit = true) (hf : ∀ c ∈ fs, c.isDigit = true) :
    parseNum (ds ++ '.' :: fs) =
      some ((digitsToNat ds : ℚ) + (digitsToNat fs : ℚ) / (10 : ℚ) ^ fs.length) := by
  have hall : ∀ c ∈ ds ++ '.' :: fs, (c.isDigit || c == '.') = true := by
    intro c hc
    rcases List.mem_append.mp hc with h | h
    · rw [hd c h]; rfl
    · rcases List.mem_cons.mp h with h | h
      · subst h; rfl
      · rw [hf c h]; rfl
  have hint : List.takeWhile Char.isDigit (ds ++ '.' :: fs) = ds := by
    rw [takeWhile_append_all _ hd, List.takeWhile_cons, if_neg (by decide), List.append_nil]
  have hfall : fs.all Char.isDigit = true := List.all_eq_true.mpr hf
  simp only [parseNum]
  rw [takeWhile_all hall, hint, List.drop_left, fracOf_dot, List.drop_length]
  rw [if_neg (fun hcon => hne hcon.1), hfall, if_neg (by decide), expEval_nil]

theorem rat_cast_toNat_num (q : ℚ) (h0 : 0 ≤ q) (c : ℕ) (hc : 10 ^ decExp q.den = q.den * c) :
    (((q * 10 ^ decExp q.den).num.toNat : ℕ) : ℚ) = q * 10 ^ decExp q.den := by
  have hden : ((q.den : ℚ)) ≠ 0 := Nat.cast_ne_zero.mpr q.den_nz
  have h1 : q * 10 ^ decExp q.den = ((q.num * c : ℤ) : ℚ) := by
    have h10 : ((10 : ℚ) ^ decExp q.den) = ((q.den * c : ℕ) : ℚ) := by
      rw [← hc]
      push_cast
      ring
    have hq : q = (q.num : ℚ) / (q.den : ℚ) := (Rat.num_div_den q).symm
    rw [h10]
    obtain ⟨n, d, hn, hd⟩ : ∃ n d, q.num = n ∧ q.den = d := ⟨_, _, rfl, rfl⟩
    rw [hn, hd] at hq ⊢
    rw [hd] at hden
    rw [hq]
    push_cast
    field_simp
    ring
  have h2 : (q * 10 ^ decExp q.den).num = q.num * c := by
    rw [h1, Rat.num_intCast]
  have h3 : (0 : ℤ) ≤ q.num * c :=
    mul_nonneg (Rat.num_nonneg.mpr h0) (Int.ofNat_nonneg c)
  rw [h2, h1]
  exact_mod_cast congrArg (fun z : ℤ => (z : ℚ)) (Int.toNat_of_nonneg h3)

theorem fmtNumNN_int (q : ℚ) (hk : decExp q.den = 0) :
    fmtNumNN q = natDigits ((q * 10 ^ decExp q.den).num.toNat) := by
  simp only [fmtNumNN]
  rw [if_pos hk]

theorem fmtNumNN_frac (q : ℚ) (hk : ¬decExp q.den = 0) :
    fmtNumNN q =
      natDigits ((q * 10 ^ decExp q.den).num.toNat / 10 ^ decExp q.den) ++ '.' ::
        (List.replicate
            (decExp q.den -
              (natDigits ((q * 10 ^ decExp q.den).num.toNat % 10 ^ decExp q.den)).length) '0' ++
         natDigits ((q * 10 ^ decExp q.den).num.toNat % 10 ^ decExp q.den)) := by
  simp only [fmtNumNN]
  rw [if_neg hk]

theorem parseNum_fmtNumNN (q : ℚ) (h0 : 0 ≤ q) (hdvd : q.den ∣ 10 ^ decExp q.den) :
    parseNum (fmtNumNN q) = some q := by
  obtain ⟨c, hc⟩ := hdvd
  have hqm := rat_cast_toNat_num q h0 c hc
  by_cases hk : decExp q.den = 0
  · rw [fmtNumNN_int q hk, parseNum_digits _ (natDigits_ne_nil _) (natDigits_all_digit _),
        digitsToNat_natDigits]
    have : (((q * 10 ^ decExp q.den).num.toNat : ℕ) : ℚ) = q := by
      rw [hqm, hk]
      norm_num
    rw [this]
  · have hk1 : 1 ≤ decExp q.den := by omega
    have hpow : (0 : ℕ) < 10 ^ decExp q.den := Nat.pos_pow_of_pos _ (by norm_num)
    have hblt : (q * 10 ^ decExp q.den).num.toNat % 10 ^ decExp q.den < 10 ^ decExp q.den :=
      Nat.mod_lt _ hpow
    have hlen : (natDigits ((q * 10 ^ decExp q.den).num.toNat % 10 ^ decExp q.den)).length ≤
        decExp q.den := natDigits_length_le _ _ hk1 hblt
    rw [fmtNumNN_frac q hk]
    rw [parseNum_digits_frac _ _ (natDigits_ne_nil _) (natDigits_all_digit _)
        (by
          intro ch hch
          rcases List.mem_append.mp hch with h | h
          · rw [List.eq_of_mem_replicate h]
            decide
          · exact natDigits_all_digit _ ch h)]
    rw [digitsToNat_replicate_zero, digitsToNat_natDigits, digitsToNat_natDigits]
    rw [List.length_append, List.length_replicate]
    have hlen2 : decExp q.den -
        (natDigits ((q * 10 ^ decExp q.den).num.toNat % 10 ^ decExp q.den)).length +
        (natDigits ((q * 10 ^ decExp q.den).num.toNat % 10 ^ decExp q.den)).length =
        decExp q.den := by omega
    rw [hlen2]
    have hqpow : ((10 : ℚ) ^ decExp q.den) ≠ 0 := by positivity
    have hsplit : ((q * 10 ^ decExp q.den).num.toNat / 10 ^ decExp q.den : ℕ) * 10 ^ decExp q.den +
        ((q * 10 ^ decExp q.den).num.toNat % 10 ^ decExp q.den : ℕ) =
        (q * 10 ^ decExp q.den).num.toNat := by
      rw [Nat.mul_comm]
      exact Nat.div_add_mod _ _
    have : ((q * 10 ^ decExp q.den).num.toNat / 10 ^ decExp q.den : ℕ) +
        (((q * 10 ^ decExp q.den).num.toNat % 10 ^ decExp q.den : ℕ) : ℚ) /
          (10 : ℚ) ^ decExp q.den = q := by
      have hcast := congrArg (fun n : ℕ => (n : ℚ)) hsplit
      push_cast at hcast
      rw [hqm] at hcast
      field_simp
      linarith [hcast]
    rw [this]

/-! ### C3: the backtracking numeral quantifier -/

theorem numCands_head_cons {valid : List Char → Bool} {cs : List Char} {n0 : Nat}
    (h0 : n0 ≠ 0) (hle : n0 ≤ cs.length) (hv : valid (cs.take n0) = true)
    (hmax : ∀ j, n0 < j → valid (cs.take j) = false) :
    ∃ t, numCands valid cs = (cs.take n0, cs.drop n0) :: t := by
  have key : ∀ L, n0 ≤ L →
      (List.range (L + 1)).reverse.filterMap
          (fun n => if n ≠ 0 ∧ valid (cs.take n) = true
                    then some (cs.take n, cs.drop n) else none) =
        (cs.take n0, cs.drop n0) ::
          (List.range n0).reverse.filterMap
            (fun n => if n ≠ 0 ∧ valid (cs.take n) = true
                      then some (cs.take n, cs.drop n) else none) := by
    intro L hL
    induction L, hL using Nat.le_induction with
    | base =>
        rw [List.range_succ, List.reverse_append, List.reverse_singleton,
            List.singleton_append]
        rw [List.filterMap_cons_some (by
          show (if n0 ≠ 0 ∧ valid (cs.take n0) = true
                then some (cs.take n0, cs.drop n0) else none) = _
          rw [if_pos ⟨h0, hv⟩])]
    | succ L hL ih =>
        rw [List.range_succ, List.reverse_append, List.reverse_singleton,
            List.singleton_append]
        rw [List.filterMap_cons_none (by
          show (if L + 1 ≠ 0 ∧ valid (cs.take (L + 1)) = true
                then some (cs.take (L + 1), cs.drop (L + 1)) else none) = none
          rw [if_neg (fun hcon => by
            rw [hmax (L + 1) (by omega)] at hcon
            exact Bool.false_ne_true hcon.2)])]
        exact ih
  exact ⟨_, key cs.length hle⟩

theorem numCands_nil {valid : List Char → Bool} {cs : List Char}
    (h : ∀ j, j ≠ 0 → valid (cs.take j) = false) : numCands valid cs = [] := by
  unfold numCands
  generalize (List.range (cs.length + 1)).reverse = l
  induction l with
  | nil => rfl
  | cons a l ih =>
      rw [List.filterMap_cons_none (by
        show (if a ≠ 0 ∧ valid (cs.take a) = true
              then some (cs.take a, cs.drop a) else none) = none
        rw [if_neg (fun hcon => by
          rw [h a hcon.1] at hcon
          exact Bool.false_ne_true hcon.2)])]
      exact ih

theorem mem_numCands {valid : List Char → Bool} {cs p s : List Char}
    (h : (p, s) ∈ numCands valid cs) : cs = p ++ s ∧ valid p = true := by
  unfold numCands at h
  rw [List.mem_filterMap] at h
  obtain ⟨n, _, hg⟩ := h
  by_cases hcond : n ≠ 0 ∧ valid (cs.take n) = true
  · rw [if_pos hcond] at hg
    injection hg with he
    have hp : cs.take n = p := congrArg Prod.fst he
    have hs : cs.drop n = s := congrArg Prod.snd he
    subst hp
    subst hs
    exact ⟨(List.take_append_drop n cs).symm, hcond.2⟩
  · rw [if_neg hcond] at hg
    cases hg

/-! ### C3: the prefix group consumes only prefix characters -/

theorem isPre_of_ws {c : Char} (h : isWs c = true) : isPre c = true := by
  unfold isPre
  rw [h]
  rfl

theorem isPre_of_numCore_char {c : Char} (h : (c.isDigit || c == '.') = true) :
    isPre c = true := by
  unfold isPre
  rcases Bool.or_eq_true _ _ |>.mp h with h' | h' <;> simp [h']

theorem isPre_of_ttl_char {c : Char}
    (h : (c.isDigit || c == '.' || c == 'e' || c == 'E' || c == '+' || c == '-') = true) :
    isPre c = true := by
  unfold isPre
  rcases Bool.or_eq_true _ _ |>.mp h with h' | h'
  rotate_left
  · simp [h']
  rcases Bool.or_eq_true _ _ |>.mp h' with h2 | h2
  rotate_left
  · simp [h2]
  rcases Bool.or_eq_true _ _ |>.mp h2 with h3 | h3
  rotate_left
  · simp [h3]
  rcases Bool.or_eq_true _ _ |>.mp h3 with h4 | h4
  rotate_left
  · simp [h4]
  rcases Bool.or_eq_true _ _ |>.mp h4 with h5 | h5 <;> simp [h5]

theorem allPre_append {xs ys : List Char} (hx : ∀ c ∈ xs, isPre c = true)
    (hy : ∀ c ∈ ys, isPre c = true) : ∀ c ∈ xs ++ ys, isPre c = true := by
  intro c hc
  rcases List.mem_append.mp hc with h | h
  exacts [hx c h, hy c h]

theorem preStep_trans {a b c : List Char}
    (h1 : ∃ xs, a = xs ++ b ∧ ∀ x ∈ xs, isPre x = true)
    (h2 : ∃ xs, b = xs ++ c ∧ ∀ x ∈ xs, isPre x = true) :
    ∃ xs, a = xs ++ c ∧ ∀ x ∈ xs, isPre x = true := by
  obtain ⟨x1, he1, hp1⟩ := h1
  obtain ⟨x2, he2, hp2⟩ := h2
  exact ⟨x1 ++ x2, by rw [he1, he2, List.append_assoc], allPre_append hp1 hp2⟩

theorem preStep_dropWs (l : List Char) :
    ∃ xs, l = xs ++ dropWs l ∧ ∀ x ∈ xs, isPre x = true :=
  ⟨l.takeWhile isWs, (List.takeWhile_append_dropWhile _ _).symm,
   fun _ hc => isPre_of_ws (List.mem_takeWhile_imp hc)⟩

theorem preStep_refl (a : List Char) :
    ∃ xs, a = xs ++ a ∧ ∀ x ∈ xs, isPre x = true :=
  ⟨[], rfl, by intro x hx; cases hx⟩

theorem preStep_cons {c : Char} (r : List Char) (hc : isPre c = true) :
    ∃ xs, c :: r = xs ++ r ∧ ∀ x ∈ xs, isPre x = true := by
  refine ⟨[c], rfl, ?_⟩
  intro x hx
  rw [List.mem_singleton] at hx
  subst hx
  exact hc

theorem mem_tsAlts_decomp {cs : List Char} {pc : PreCap} {r : List Char}
    (h : (pc, r) ∈ tsAlts cs) :
    ∃ xs, cs = xs ++ '@' :: r ∧ ∀ c ∈ xs, isPre c = true := by
  simp only [tsAlts] at h
  rw [List.mem_flatMap] at h
  obtain ⟨ta, hta, h⟩ := h
  rw [List.mem_flatMap] at h
  obtain ⟨sa, hsa, h⟩ := h
  rw [List.mem_filterMap] at h
  obtain ⟨tta, htta, happ⟩ := h
  have hfin : ∃ xs, tta.2 = xs ++ '@' :: r ∧ ∀ c ∈ xs, isPre c = true := by
    cases hdw : dropWs tta.2 with
    | nil =>
        rw [hdw] at happ
        exact absurd happ (by intro hx; cases hx)
    | cons c0 r0 =>
        rw [hdw] at happ
        have happ2 : (if c0 = '@'
            then some ({ time := ta.1, minus := sa.1, ttl := tta.1 }, r0)
            else none) = some (pc, r) := happ
        by_cases hc0 : c0 = '@'
        · rw [if_pos hc0] at happ2
          injection happ2 with he
          have hr0 : r0 = r := congrArg Prod.snd he
          subst hr0
          subst hc0
          obtain ⟨w3, hw3, hw3p⟩ := preStep_dropWs tta.2
          rw [hdw] at hw3
          exact ⟨w3, hw3, hw3p⟩
        · rw [if_neg hc0] at happ2
          cases happ2
  have httaStep : ∃ xs, dropWs sa.2 = xs ++ tta.2 ∧ ∀ c ∈ xs, isPre c = true := by
    rcases List.mem_append.mp htta with hA | hB
    · rw [List.mem_map] at hA
      obtain ⟨p, hp, hpe⟩ := hA
      have h2 : tta.2 = p.2 := by rw [← hpe]
      rw [h2]
      obtain ⟨hsplit, hvalid⟩ := mem_numCands (p := p.1) (s := p.2) (by
        cases p
        exact hp)
      exact ⟨p.1, hsplit, fun c hc => isPre_of_ttl_char (ttlNum_chars hvalid c hc)⟩
    · rw [List.mem_singleton] at hB
      rw [hB]
      exact preStep_refl _
  have hsaStep : ∃ xs, dropWs ta.2 = xs ++ sa.2 ∧ ∀ c ∈ xs, isPre c = true := by
    cases hr1 : dropWs ta.2 with
    | nil =>
        rw [hr1] at hsa
        have hsa2 : sa ∈ [((false : Bool), ([] : List Char))] := hsa
        rw [List.mem_singleton] at hsa2
        rw [hsa2]
        exact preStep_refl _
    | cons c1 r1 =>
        rw [hr1] at hsa
        have hsa2 : sa ∈ (if c1 = '+' then [(false, r1), (false, c1 :: r1)]
            else if c1 = '-' then [(true, r1), (false, c1 :: r1)]
            else [(false, c1 :: r1)]) := hsa
        by_cases hp1 : c1 = '+'
        · rw [if_pos hp1] at hsa2
          rcases List.mem_cons.mp hsa2 with he | he
          · rw [he]
            subst hp1
            exact preStep_cons r1 (by decide)
          · rw [List.mem_singleton] at he
            rw [he]
            exact preStep_refl _
        · rw [if_neg hp1] at hsa2
          by_cases hm1 : c1 = '-'
          · rw [if_pos hm1] at hsa2
            rcases List.mem_cons.mp hsa2 with he | he
            · rw [he]
              subst hm1
              exact preStep_cons r1 (by decide)
            · rw [List.mem_singleton] at he
              rw [he]
              exact preStep_refl _
          · rw [if_neg hm1] at hsa2
            rw [List.mem_singleton] at hsa2
            rw [hsa2]
            exact preStep_refl _
  have htaStep : ∃ xs, dropWs cs = xs ++ ta.2 ∧ ∀ c ∈ xs, isPre c = true := by
    rcases List.mem_append.mp hta with hA | hB
    · rw [List.mem_map] at hA
      obtain ⟨p, hp, hpe⟩ := hA
      have h2 : ta.2 = p.2 := by rw [← hpe]
      rw [h2]
      obtain ⟨hsplit, hvalid⟩ := mem_numCands (p := p.1) (s := p.2) (by
        cases p
        exact hp)
      exact ⟨p.1, hsplit,
        fun c hc => isPre_of_numCore_char (numCore_chars hvalid c hc)⟩
    · rw [List.mem_singleton] at hB
      rw [hB]
      exact preStep_refl _
  exact preStep_trans (preStep_dropWs cs)
    (preStep_trans htaStep
      (preStep_trans (preStep_dropWs ta.2)
        (preStep_trans hsaStep
          (preStep_trans (preStep_dropWs sa.2) (preStep_trans httaStep hfin)))))

theorem tsAlts_eq_nil {cs ks tail : List Char} {op : Char} (hcs : cs = ks ++ op :: tail)
    (hk : ∀ c ∈ ks, c ≠ '@') (hop1 : isPre op = false) (hop2 : op ≠ '@') :
    tsAlts cs = [] := by
  rw [List.eq_nil_iff_forall_not_mem]
  rintro ⟨pc, r⟩ hmem
  obtain ⟨xs, he, hpre⟩ := mem_tsAlts_decomp hmem
  rw [hcs] at he
  rcases List.append_eq_append_iff.mp he with ⟨as, ha1, ha2⟩ | ⟨bs, hb1, hb2⟩
  · cases as with
    | nil =>
        rw [List.nil_append] at ha2
        injection ha2 with h1 h2
        exact hop2 h1
    | cons a as2 =>
        injection ha2 with h1 h2
        subst h1
        have : op ∈ xs := by
          rw [ha1]
          exact List.mem_append.mpr (Or.inr (List.mem_cons_self _ _))
        rw [hpre op this] at hop1
        cases hop1
  · cases bs with
    | nil =>
        rw [List.append_nil] at hb1
        injection hb2 with h1 h2
        exact hop2 h1.symm
    | cons b bs2 =>
        injection hb2 with h1 h2
        subst h1
        have : '@' ∈ ks := by
          rw [hb1]
          exact List.mem_append.mpr (Or.inr (List.mem_cons_self _ _))
        exact hk '@' this rfl

/-! ### C3: the key/op/value tail of the match -/

theorem dropWhile_all_false {p : Char → Bool} {l : List Char}
    (h : ∀ c ∈ l, p c = false) : List.dropWhile p l = l := by
  cases l with
  | nil => rfl
  | cons c t =>
      rw [List.dropWhile_cons, if_neg (fun hc => by
        rw [h c (List.mem_cons_self c t)] at hc
        cases hc)]

theorem trimWs_of_all {cs : List Char} (h : ∀ c ∈ cs, isWs c = false) : trimWs cs = cs := by
  unfold trimWs
  rw [dropWhile_all_false h, dropWhile_all_false (fun c hc => h c (List.mem_reverse.mp hc)),
      List.reverse_reverse]

theorem stringMk_toList (s : String) : String.mk s.toList = s := rfl

theorem dropWs_cons_of_not_ws {c : Char} {r : List Char} (h : isWs c = false) :
    dropWs (c :: r) = c :: r := by
  unfold dropWs
  rw [List.dropWhile_cons, if_neg (fun hc => by rw [h] at hc; cases hc)]

theorem isWs_false_of_digit {c : Char} (h : c.isDigit = true) : isWs c = false := by
  cases hw : isWs c with
  | false => rfl
  | true =>
      have : c = ' ' ∨ c = '\t' ∨ c = '\n' ∨ c = '\r' ∨ c = '\x0b' ∨ c = '\x0c' := by
        simpa [isWs, or_assoc] using hw
      rcases this with h' | h' | h' | h' | h' | h' <;> subst h' <;> cases h

theorem keySafeChar_props {c : Char} (h : keySafeChar c = true) :
    isOpChar c = false ∧ isWs c = false ∧ c ≠ '@' := by
  unfold keySafeChar at h
  rw [Bool.and_eq_true, Bool.and_eq_true] at h
  obtain ⟨⟨h1, h2⟩, h3⟩ := h
  refine ⟨?_, ?_, ?_⟩
  · cases hop : isOpChar c with
    | false => rfl
    | true => rw [hop] at h1; cases h1
  · cases hws : isWs c with
    | false => rfl
    | true => rw [hws] at h2; cases h2
  · intro he
    subst he
    cases h3

theorem valCapture_newline {v : List Char} (ht : trimmedB v = true)
    (hcr : ∀ c ∈ v, (c == '\n' || c == '\r') = false) :
    valCapture (v ++ ['\n']) = some v := by
  unfold trimmedB at ht
  rw [Bool.and_eq_true, beq_iff_eq, beq_iff_eq] at ht
  obtain ⟨hd1, hd2⟩ := ht
  have hcore : trimWs (v ++ ['\n']) = v := by
    cases v with
    | nil => rfl
    | cons c t =>
        have hcws : isWs c = false := by
          cases hws : isWs c with
          | false => rfl
          | true =>
              rw [List.dropWhile_cons, if_pos hws] at hd1
              have hsl := (List.dropWhile_suffix (l := t) isWs).length_le
              have hlen := congrArg List.length hd1
              rw [List.length_cons] at hlen
              omega
        unfold trimWs
        rw [List.cons_append, List.dropWhile_cons, if_neg (fun hc => by rw [hcws] at hc; cases hc)]
        rw [← List.cons_append, List.reverse_append, List.reverse_singleton,
            List.singleton_append, List.dropWhile_cons, if_pos (by decide), hd2,
            List.reverse_reverse]
  unfold valCapture
  rw [hcore, if_pos (List.all_eq_true.mpr (fun c hc => by rw [hcr c hc]; rfl))]

theorem keyOpVal_spec :
    ∀ (ks acc : List Char) {op : Char} {tail v : List Char},
      (∀ c ∈ ks, isOpChar c = false) → isOpChar op = true → valCapture tail = some v →
      keyOpVal acc (ks ++ op :: tail) = some (trimWs (acc ++ ks), op, v) := by
  intro ks
  induction ks with
  | nil =>
      intro acc op tail v _ hop hv
      rw [List.nil_append, List.append_nil, keyOpVal, hop, if_pos rfl, hv]
  | cons c ks ih =>
      intro acc op tail v hks hop hv
      rw [List.cons_append, keyOpVal, hks c (List.mem_cons_self c ks),
          if_neg (fun hc => by cases hc)]
      rw [ih (acc ++ [c]) (fun x hx => hks x (List.mem_cons_of_mem _ hx)) hop hv]
      rw [List.append_assoc, List.singleton_append]

/-! ### C3: the prefix group matches a well-formed timestamp head first -/

theorem numCore_head_digit {t : List Char} (h : isNumCore t = true) :
    ∃ c r, t = c :: r ∧ c.isDigit = true := by
  simp only [isNumCore] at h
  rw [Bool.and_eq_true] at h
  obtain ⟨h1, -⟩ := h
  cases t with
  | nil => cases h1
  | cons c r =>
      by_cases hd : c.isDigit = true
      · exact ⟨c, r, rfl, hd⟩
      · rw [List.takeWhile_cons, if_neg (fun hc => hd hc)] at h1
        cases h1

theorem ttlNum_head_digit {t : List Char} (h : isTtlNum t = true) :
    ∃ c r, t = c :: r ∧ c.isDigit = true := by
  simp only [isTtlNum] at h
  rw [Bool.and_eq_true] at h
  obtain ⟨h1, -⟩ := h
  obtain ⟨c, r, he, hd⟩ := numCore_head_digit h1
  cases t with
  | nil => cases he
  | cons c0 t0 =>
      by_cases hcl : (c0.isDigit || c0 == '.') = true
      · rw [List.takeWhile_cons, if_pos hcl] at he
        injection he with he1 he2
        subst he1
        exact ⟨c0, t0, rfl, hd⟩
      · rw [List.takeWhile_cons, if_neg hcl] at he
        cases he

theorem isTtlNum_cons_false {c : Char} (xs : List Char)
    (hc : (c.isDigit || c == '.') = false) : isTtlNum (c :: xs) = false := by
  simp only [isTtlNum]
  rw [List.takeWhile_cons, if_neg (fun h => by rw [hc] at h; cases h)]
  rfl

theorem findSome?_of_head {α β : Type} {f : α → Option β} {l : List α} {a : α} {b : β}
    (hl : l.head? = some a) (hf : f a = some b) : l.findSome? f = some b := by
  cases l with
  | nil => cases hl
  | cons x xs =>
      rw [List.head?_cons] at hl
      injection hl with he
      subst he
      rw [List.findSome?_cons, hf]

theorem tsAlts_head_time {t key0 : List Char} (ht : isNumCore t = true) :
    (tsAlts (t ++ '@' :: key0)).head? =
      some ({ time := some t, minus := false, ttl := none }, key0) := by
  obtain ⟨c0, t0, hte, htd⟩ := numCore_head_digit ht
  have hlen0 : t.length ≠ 0 := by rw [hte]; simp
  have hdrop : dropWs (t ++ '@' :: key0) = t ++ '@' :: key0 := by
    rw [hte, List.cons_append]
    exact dropWs_cons_of_not_ws (isWs_false_of_digit htd)
  have hmax : ∀ j, t.length < j → isNumCore ((t ++ '@' :: key0).take j) = false := by
    intro j hj
    have hmem : '@' ∈ (t ++ '@' :: key0).take j := by
      rw [List.take_append_eq_append_take]
      obtain ⟨k, hk⟩ : ∃ k, j - t.length = k + 1 := ⟨j - t.length - 1, by omega⟩
      rw [hk, List.take_succ_cons]
      exact List.mem_append.mpr (Or.inr (List.mem_cons_self _ _))
    cases hvb : isNumCore ((t ++ '@' :: key0).take j) with
    | false => rfl
    | true => exact absurd (numCore_chars hvb '@' hmem) (by decide)
  obtain ⟨tl1, h1⟩ := @numCands_head_cons isNumCore (t ++ '@' :: key0) t.length
    hlen0 (by rw [List.length_append]; omega) (by rw [List.take_left]; exact ht) hmax
  rw [List.take_left, List.drop_left] at h1
  have hAt : dropWs ('@' :: key0) = '@' :: key0 := dropWs_cons_of_not_ws (by decide)
  have hTtlNil : numCands isTtlNum ('@' :: key0) = [] := by
    apply numCands_nil
    intro j hj
    obtain ⟨k, hk⟩ : ∃ k, j = k + 1 := ⟨j - 1, by omega⟩
    rw [hk, List.take_succ_cons]
    exact isTtlNum_cons_false _ (by decide)
  simp only [tsAlts]
  rw [hdrop, h1]
  simp only [List.map_cons, List.cons_append, List.flatMap_cons]
  rw [hAt]
  simp only [if_neg (show ¬('@' = '+') by decide), if_neg (show ¬('@' = '-') by decide)]
  simp only [List.flatMap_cons, List.flatMap_nil, List.append_nil]
  rw [hAt, hTtlNil]
  simp only [List.map_nil, List.nil_append, List.filterMap_cons]
  rw [hAt]
  simp only [if_pos (show '@' = '@' from rfl)]
  rfl

theorem tsAlts_head_full {t l key0 : List Char} (ht : isNumCore t = true)
    (hl : isTtlNum l = true) :
    (tsAlts (t ++ '+' :: (l ++ '@' :: key0))).head? =
      some ({ time := some t, minus := false, ttl := some l }, key0) := by
  obtain ⟨c0, t0, hte, htd⟩ := numCore_head_digit ht
  obtain ⟨c1, l0, hle, hld⟩ := ttlNum_head_digit hl
  have hlen0 : t.length ≠ 0 := by rw [hte]; simp
  have hlenl : l.length ≠ 0 := by rw [hle]; simp
  have hdrop : dropWs (t ++ '+' :: (l ++ '@' :: key0)) = t ++ '+' :: (l ++ '@' :: key0) := by
    rw [hte, List.cons_append]
    exact dropWs_cons_of_not_ws (isWs_false_of_digit htd)
  have hdropP : dropWs ('+' :: (l ++ '@' :: key0)) = '+' :: (l ++ '@' :: key0) :=
    dropWs_cons_of_not_ws (by decide)
  have hdropl : dropWs (l ++ '@' :: key0) = l ++ '@' :: key0 := by
    rw [hle, List.cons_append]
    exact dropWs_cons_of_not_ws (isWs_false_of_digit hld)
  have hAt : dropWs ('@' :: key0) = '@' :: key0 := dropWs_cons_of_not_ws (by decide)
  have hmax : ∀ j, t.length < j →
      isNumCore ((t ++ '+' :: (l ++ '@' :: key0)).take j) = false := by
    intro j hj
    have hmem : '+' ∈ (t ++ '+' :: (l ++ '@' :: key0)).take j := by
      rw [List.take_append_eq_append_take]
      obtain ⟨k, hk⟩ : ∃ k, j - t.length = k + 1 := ⟨j - t.length - 1, by omega⟩
      rw [hk, List.take_succ_cons]
      exact List.mem_append.mpr (Or.inr (List.mem_cons_self _ _))
    cases hvb : isNumCore ((t ++ '+' :: (l ++ '@' :: key0)).take j) with
    | false => rfl
    | true => exact absurd (numCore_chars hvb '+' hmem) (by decide)
  obtain ⟨tl1, h1⟩ := @numCands_head_cons isNumCore (t ++ '+' :: (l ++ '@' :: key0)) t.length
    hlen0 (by rw [List.length_append]; omega) (by rw [List.take_left]; exact ht) hmax
  rw [List.take_left, List.drop_left] at h1
  have hmaxl : ∀ j, l.length < j → isTtlNum ((l ++ '@' :: key0).take j) = false := by
    intro j hj
    have hmem : '@' ∈ (l ++ '@' :: key0).take j := by
      rw [List.take_append_eq_append_take]
      obtain ⟨k, hk⟩ : ∃ k, j - l.length = k + 1 := ⟨j - l.length - 1, by omega⟩
      rw [hk, List.take_succ_cons]
      exact List.mem_append.mpr (Or.inr (List.mem_cons_self _ _))
    cases hvb : isTtlNum ((l ++ '@' :: key0).take j) with
    | false => rfl
    | true => exact absurd (ttlNum_chars hvb '@' hmem) (by decide)
  obtain ⟨tl2, h2⟩ := @numCands_head_cons isTtlNum (l ++ '@' :: key0) l.length
    hlenl (by rw [List.length_append]; omega) (by rw [List.take_left]; exact hl) hmaxl
  rw [List.take_left, List.drop_left] at h2
  simp only [tsAlts]
  rw [hdrop, h1]
  simp only [List.map_cons, List.cons_append, List.flatMap_cons]
  rw [hdropP]
  simp only [if_true]
  simp only [List.flatMap_cons]
  rw [hdropl, h2]
  simp only [List.map_cons, List.cons_append, List.filterMap_cons]
  rw [hAt]
  simp only [if_pos (show '@' = '@' from rfl)]
  rfl

/-! ### C3: assembling a full match -/

theorem msgMatch_no_ts {cs k v : List Char} {op : Char} (hts : tsAlts cs = [])
    (hkov : keyOpVal [] cs = some (k, op, v)) :
    msgMatch cs = some (RawCaps.mk none k op v) := by
  simp only [msgMatch]
  rw [hts, List.findSome?_nil, hkov]
  rfl

theorem msgMatch_ts {cs r k v : List Char} {pc : PreCap} {op : Char}
    (hts : (tsAlts cs).head? = some (pc, r))
    (hkov : keyOpVal [] r = some (k, op, v)) :
    msgMatch cs = some (RawCaps.mk (some pc) k op v) := by
  have hf : (fun pa : PreCap × List Char =>
      (keyOpVal [] pa.2).map (fun kov => RawCaps.mk (some pa.1) kov.1 kov.2.1 kov.2.2))
        (pc, r) = some (RawCaps.mk (some pc) k op v) := by
    simp only []
    rw [hkov]
    rfl
  have hfs := @findSome?_of_head _ _
    (fun pa : PreCap × List Char =>
      (keyOpVal [] pa.2).map (fun kov => RawCaps.mk (some pa.1) kov.1 kov.2.1 kov.2.2))
    (tsAlts cs) (pc, r) (RawCaps.mk (some pc) k op v) hts hf
  simp only [msgMatch]
  rw [hfs]

/-! ### C3: the parser on each emitted capture shape -/

theorem parse_eq_tell {nowv : ℚ} {s : String} {ks vs : List Char}
    (hm : msgMatch s.toList = some (RawCaps.mk none ks '=' vs)) :
    CacheMsg.parse nowv s =
      ParseOutcome.ok (CacheMsg.Tell
        (if ks.getLast? == some '#' then String.mk ks.dropLast else String.mk ks)
        (String.mk vs) (ks.getLast? == some '#')) := by
  unfold CacheMsg.parse
  rw [hm]
  rfl

theorem parse_eq_tell_ts {nowv : ℚ} {s : String} {tc ks vs : List Char}
    {ttlCap : Option (List Char)}
    (hm : msgMatch s.toList =
      some (RawCaps.mk (some (PreCap.mk (some tc) false ttlCap)) ks '=' vs)) :
    CacheMsg.parse nowv s =
      ParseOutcome.ok (CacheMsg.TellTS
        (if ks.getLast? == some '#' then String.mk ks.dropLast else String.mk ks)
        (String.mk vs) ((parseNum tc).getD nowv) ((ttlCap.bind parseNum).getD 0)
        (ks.getLast? == some '#')) := by
  unfold CacheMsg.parse
  rw [hm]
  rfl

theorem parse_eq_tellold {nowv : ℚ} {s : String} {ks vs : List Char}
    (hm : msgMatch s.toList = some (RawCaps.mk none ks '!' vs)) :
    CacheMsg.parse nowv s =
      ParseOutcome.ok (CacheMsg.TellOld (String.mk ks) (String.mk vs)) := by
  unfold CacheMsg.parse
  rw [hm]
  rfl

theorem parse_eq_telloldts {nowv : ℚ} {s : String} {tc lc ks vs : List Char}
    (hm : msgMatch s.toList =
      some (RawCaps.mk (some (PreCap.mk (some tc) false (some lc))) ks '!' vs)) :
    CacheMsg.parse nowv s =
      ParseOutcome.ok (CacheMsg.TellOldTS (String.mk ks) (String.mk vs)
        ((parseNum tc).getD nowv) ((parseNum lc).getD 0)) := by
  unfold CacheMsg.parse
  rw [hm]
  rfl

theorem parse_eq_lockres {nowv : ℚ} {s : String} {ks vrest : List Char} {c : Char}
    (hm : msgMatch s.toList = some (RawCaps.mk none ks '$' (c :: vrest)))
    (hc1 : ¬c = '+') (hc2 : ¬c = '-') :
    CacheMsg.parse nowv s =
      ParseOutcome.ok (CacheMsg.LockRes (String.mk ks) (String.mk (c :: vrest))) := by
  unfold CacheMsg.parse
  rw [hm]
  simp only [if_neg hc1, if_neg hc2]
  rfl

/-! ### C3: formatted numerals are valid regex numerals -/

theorem isNumCore_fmtNumNN (q : ℚ) : isNumCore (fmtNumNN q) = true := by
  by_cases hk : decExp q.den = 0
  · rw [fmtNumNN_int q hk]
    exact isNumCore_of_digits (natDigits_ne_nil _) (natDigits_all_digit _)
  · rw [fmtNumNN_frac q hk]
    exact isNumCore_of_digits_frac (natDigits_ne_nil _) (natDigits_all_digit _)
      (fun c hc => by
        rcases List.mem_append.mp hc with h | h
        · rw [List.eq_of_mem_replicate h]
          decide
        · exact natDigits_all_digit _ c h)

theorem isTtlNum_fmtNumNN (q : ℚ) : isTtlNum (fmtNumNN q) = true :=
  isTtlNum_of_numCore (isNumCore_fmtNumNN q)

theorem fmtNum_nonneg (q : ℚ) (h : 0 ≤ q) : fmtNum q = fmtNumNN q := by
  unfold fmtNum
  rw [if_neg (not_lt.mpr h)]

theorem keySafe_props {key : String} (h : keySafe key = true) :
    ∀ c ∈ key.toList, isOpChar c = false ∧ isWs c = false ∧ c ≠ '@' := by
  intro c hc
  unfold keySafe at h
  rw [List.all_eq_true] at h
  exact keySafeChar_props (h c hc)

theorem valSafe_props {v : String} (h : valSafe v = true) :
    trimmedB v.toList = true ∧ ∀ c ∈ v.toList, (c == '\n' || c == '\r') = false := by
  unfold valSafe at h
  rw [Bool.and_eq_true] at h
  refine ⟨h.1, fun c hc => ?_⟩
  have := List.all_eq_true.mp h.2 c hc
  simpa using this

theorem noHashEnd_props {key : String} (h : noHashEnd key = true) :
    (key.toList.getLast? == some '#') = false := by
  unfold noHashEnd at h
  rw [bne_iff_ne] at h
  exact beq_eq_false_iff_ne.mpr h

/-! ### C3: full matches of the serialized shapes -/

theorem msgMatch_noTS_shape {ks : List Char} {val : String} {op : Char}
    (hks_op : ∀ c ∈ ks, isOpChar c = false) (hks_ws : ∀ c ∈ ks, isWs c = false)
    (hks_at : ∀ c ∈ ks, c ≠ '@') (hv : valSafe val = true)
    (hop : isOpChar op = true) (hopP : isPre op = false) (hopA : ¬op = '@') :
    msgMatch (ks ++ op :: (val.toList ++ ['\n'])) =
      some (RawCaps.mk none ks op val.toList) := by
  obtain ⟨hvt, hvcr⟩ := valSafe_props hv
  have hvc := valCapture_newline hvt hvcr
  have hts : tsAlts (ks ++ op :: (val.toList ++ ['\n'])) = [] :=
    tsAlts_eq_nil rfl hks_at hopP hopA
  have hkov : keyOpVal [] (ks ++ op :: (val.toList ++ ['\n'])) = some (ks, op, val.toList) := by
    have h := keyOpVal_spec ks [] hks_op hop hvc
    rw [List.nil_append] at h
    rw [h, trimWs_of_all hks_ws]
  exact msgMatch_no_ts hts hkov

theorem msgMatch_full_shape {t l ks : List Char} {val : String} {op : Char}
    (ht : isNumCore t = true) (hl : isTtlNum l = true)
    (hks_op : ∀ c ∈ ks, isOpChar c = false) (hks_ws : ∀ c ∈ ks, isWs c = false)
    (hv : valSafe val = true) (hop : isOpChar op = true) :
    msgMatch (t ++ '+' :: (l ++ '@' :: (ks ++ op :: (val.toList ++ ['\n'])))) =
      some (RawCaps.mk (some (PreCap.mk (some t) false (some l))) ks op val.toList) := by
  obtain ⟨hvt, hvcr⟩ := valSafe_props hv
  have hvc := valCapture_newline hvt hvcr
  have hts := @tsAlts_head_full t l (ks ++ op :: (val.toList ++ ['\n'])) ht hl
  have hkov : keyOpVal [] (ks ++ op :: (val.toList ++ ['\n'])) = some (ks, op, val.toList) := by
    have h := keyOpVal_spec ks [] hks_op hop hvc
    rw [List.nil_append] at h
    rw [h, trimWs_of_all hks_ws]
  exact msgMatch_ts hts hkov

theorem msgMatch_time_shape {t ks : List Char} {val : String} {op : Char}
    (ht : isNumCore t = true)
    (hks_op : ∀ c ∈ ks, isOpChar c = false) (hks_ws : ∀ c ∈ ks, isWs c = false)
    (hv : valSafe val = true) (hop : isOpChar op = true) :
    msgMatch (t ++ '@' :: (ks ++ op :: (val.toList ++ ['\n']))) =
      some (RawCaps.mk (some (PreCap.mk (some t) false none)) ks op val.toList) := by
  obtain ⟨hvt, hvcr⟩ := valSafe_props hv
  have hvc := valCapture_newline hvt hvcr
  have hts := @tsAlts_head_time t (ks ++ op :: (val.toList ++ ['\n'])) ht
  have hkov : keyOpVal [] (ks ++ op :: (val.toList ++ ['\n'])) = some (ks, op, val.toList) := by
    have h := keyOpVal_spec ks [] hks_op hop hvc
    rw [List.nil_append] at h
    rw [h, trimWs_of_all hks_ws]
  exact msgMatch_ts hts hkov

theorem hashKey_props {key : String}
    (hkp : ∀ c ∈ key.toList, isOpChar c = false ∧ isWs c = false ∧ c ≠ '@') :
    ∀ c ∈ key.toList ++ ['#'], isOpChar c = false ∧ isWs c = false ∧ c ≠ '@' := by
  intro c hc
  rcases List.mem_append.mp hc with h | h
  · exact hkp c h
  · rw [List.mem_singleton] at h
    subst h
    exact ⟨by decide, by decide, by decide⟩

/-- C3 counterexample: the server's granted lock reply `LockRes{client: ""}`
    serializes to `"k$\n"`, whose re-parse hits the out-of-range `&val[1..]`
    slice instead of returning the message. -/
theorem lockres_empty_roundtrip_cex :
    CacheMsg.parse 0 ((CacheMsg.LockRes "k" "").to_string) = ParseOutcome.oob := by
  decide

/-- C3 (amended): for every emitted message kind (`Tell*`, `LockRes`) whose
    keys and values are wire-safe, whose numeric fields are nonnegative
    terminating decimals, and whose `LockRes` client is nonempty and does not
    start with `+`/`-`, parsing the serialization returns exactly the message
    (with a `TellTS` ttl of `0` both serializing and re-parsing as "no ttl"). -/
theorem parse_to_string (m : CacheMsg) (nowv : ℚ) (h1 : emittedKind m)
    (h2 : wireSafe m) :
    CacheMsg.parse nowv (CacheMsg.to_string m) = ParseOutcome.ok m := by
  cases m with
  | Quit => exact h1.elim
  | Ask key with_ts => exact h1.elim
  | AskWild key_wc with_ts => exact h1.elim
  | AskHist key from_ delta => exact h1.elim
  | Subscribe key_sub with_ts => exact h1.elim
  | Unsub key_sub with_ts => exact h1.elim
  | Rewrite newpfx oldpfx => exact h1.elim
  | Lock key client time ttl => exact h1.elim
  | Unlock key client => exact h1.elim
  | Tell key val ns =>
      obtain ⟨hk, hv, hh⟩ := h2
      have hkp := keySafe_props hk
      cases ns with
      | false =>
          have hlist : (CacheMsg.to_string (CacheMsg.Tell key val false)).toList
              = key.toList ++ '=' :: (val.toList ++ ['\n']) := by
            have h0 : (CacheMsg.to_string (CacheMsg.Tell key val false)).toList
                = (((key.toList ++ []) ++ ['=']) ++ val.toList) ++ ['\n'] := rfl
            rw [h0]
            simp [List.append_assoc]
          have hm : msgMatch ((CacheMsg.to_string (CacheMsg.Tell key val false)).toList)
              = some (RawCaps.mk none key.toList '=' val.toList) := by
            rw [hlist]
            exact msgMatch_noTS_shape (fun c hc => (hkp c hc).1) (fun c hc => (hkp c hc).2.1)
              (fun c hc => (hkp c hc).2.2) hv (by decide) (by decide) (by decide)
          rw [parse_eq_tell hm, noHashEnd_props hh, if_neg Bool.false_ne_true,
              stringMk_toList, stringMk_toList]
      | true =>
          have hkp2 := hashKey_props hkp
          have hlist : (CacheMsg.to_string (CacheMsg.Tell key val true)).toList
              = (key.toList ++ ['#']) ++ '=' :: (val.toList ++ ['\n']) := by
            have h0 : (CacheMsg.to_string (CacheMsg.Tell key val true)).toList
                = (((key.toList ++ ['#']) ++ ['=']) ++ val.toList) ++ ['\n'] := rfl
            rw [h0]
            simp [List.append_assoc]
          have hm : msgMatch ((CacheMsg.to_string (CacheMsg.Tell key val true)).toList)
              = some (RawCaps.mk none (key.toList ++ ['#']) '=' val.toList) := by
            rw [hlist]
            exact msgMatch_noTS_shape (fun c hc => (hkp2 c hc).1) (fun c hc => (hkp2 c hc).2.1)
              (fun c hc => (hkp2 c hc).2.2) hv (by decide) (by decide) (by decide)
          have hlast : ((key.toList ++ ['#']).getLast? == some '#') = true := by
            rw [List.getLast?_concat]
            rfl
          rw [parse_eq_tell hm, hlast, if_pos rfl, List.dropLast_concat,
              stringMk_toList, stringMk_toList]
  | TellOld key val =>
      obtain ⟨hk, hv⟩ := h2
      have hkp := keySafe_props hk
      have hlist : (CacheMsg.to_string (CacheMsg.TellOld key val)).toList
          = key.toList ++ '!' :: (val.toList ++ ['\n']) := by
        have h0 : (CacheMsg.to_string (CacheMsg.TellOld key val)).toList
            = ((key.toList ++ ['!']) ++ val.toList) ++ ['\n'] := rfl
        rw [h0]
        simp [List.append_assoc]
      have hm : msgMatch ((CacheMsg.to_string (CacheMsg.TellOld key val)).toList)
          = some (RawCaps.mk none key.toList '!' val.toList) := by
        rw [hlist]
        exact msgMatch_noTS_shape (fun c hc => (hkp c hc).1) (fun c hc => (hkp c hc).2.1)
          (fun c hc => (hkp c hc).2.2) hv (by decide) (by decide) (by decide)
      rw [parse_eq_tellold hm, stringMk_toList, stringMk_toList]
  | TellOldTS key val time ttl =>
      obtain ⟨hk, hv, ht, hl⟩ := h2
      obtain ⟨ht0, htdvd⟩ := ht
      obtain ⟨hl0, hldvd⟩ := hl
      have hkp := keySafe_props hk
      have hlist : (CacheMsg.to_string (CacheMsg.TellOldTS key val time ttl)).toList
          = fmtNumNN time ++ '+' :: (fmtNumNN ttl ++ '@' ::
              (key.toList ++ '!' :: (val.toList ++ ['\n']))) := by
        have h0 : (CacheMsg.to_string (CacheMsg.TellOldTS key val time ttl)).toList
            = ((((((fmtNum time ++ ['+']) ++ fmtNum ttl) ++ ['@']) ++ key.toList)
                ++ ['!']) ++ val.toList) ++ ['\n'] := rfl
        rw [h0, fmtNum_nonneg time ht0, fmtNum_nonneg ttl hl0]
        simp [List.append_assoc]
      have hm : msgMatch ((CacheMsg.to_string (CacheMsg.TellOldTS key val time ttl)).toList)
          = some (RawCaps.mk (some (PreCap.mk (some (fmtNumNN time)) false
              (some (fmtNumNN ttl)))) key.toList '!' val.toList) := by
        rw [hlist]
        exact msgMatch_full_shape (isNumCore_fmtNumNN time) (isTtlNum_fmtNumNN ttl)
          (fun c hc => (hkp c hc).1) (fun c hc => (hkp c hc).2.1) hv (by decide)
      rw [parse_eq_telloldts hm, parseNum_fmtNumNN time ht0 htdvd,
          parseNum_fmtNumNN ttl hl0 hldvd]
      simp only [Option.getD_some]
      rw [stringMk_toList, stringMk_toList]
  | TellTS key val time ttl ns =>
      obtain ⟨hk, hv, hh, ht, hl⟩ := h2
      obtain ⟨ht0, htdvd⟩ := ht
      obtain ⟨hl0, hldvd⟩ := hl
      have hkp := keySafe_props hk
      by_cases httl : ttl > 0
      · cases ns with
        | false =>
            have hlist : (CacheMsg.to_string (CacheMsg.TellTS key val time ttl false)).toList
                = fmtNumNN time ++ '+' :: (fmtNumNN ttl ++ '@' ::
                    (key.toList ++ '=' :: (val.toList ++ ['\n']))) := by
              have h0 : (CacheMsg.to_string (CacheMsg.TellTS key val time ttl false)).toList
                  = (((((((fmtNum time ++ ['+']) ++ fmtNum ttl) ++ ['@']) ++ key.toList)
                      ++ []) ++ ['=']) ++ val.toList) ++ ['\n'] := by
                simp only [CacheMsg.to_string]
                rw [if_pos httl]
                rfl
              rw [h0, fmtNum_nonneg time ht0, fmtNum_nonneg ttl hl0]
              simp [List.append_assoc]
            have hm : msgMatch ((CacheMsg.to_string (CacheMsg.TellTS key val time ttl false)).toList)
                = some (RawCaps.mk (some (PreCap.mk (some (fmtNumNN time)) false
                    (some (fmtNumNN ttl)))) key.toList '=' val.toList) := by
              rw [hlist]
              exact msgMatch_full_shape (isNumCore_fmtNumNN time) (isTtlNum_fmtNumNN ttl)
                (fun c hc => (hkp c hc).1) (fun c hc => (hkp c hc).2.1) hv (by decide)
            have hb : ((some (fmtNumNN ttl)).bind parseNum) = parseNum (fmtNumNN ttl) := rfl
            rw [parse_eq_tell_ts hm, parseNum_fmtNumNN time ht0 htdvd, hb,
                parseNum_fmtNumNN ttl hl0 hldvd]
            simp only [Option.getD_some]
            rw [noHashEnd_props hh, if_neg Bool.false_ne_true, stringMk_toList, stringMk_toList]
        | true =>
            have hkp2 := hashKey_props hkp
            have hlist : (CacheMsg.to_string (CacheMsg.TellTS key val time ttl true)).toList
                = fmtNumNN time ++ '+' :: (fmtNumNN ttl ++ '@' ::
                    ((key.toList ++ ['#']) ++ '=' :: (val.toList ++ ['\n']))) := by
              have h0 : (CacheMsg.to_string (CacheMsg.TellTS key val time ttl true)).toList
                  = (((((((fmtNum time ++ ['+']) ++ fmtNum ttl) ++ ['@']) ++ key.toList)
                      ++ ['#']) ++ ['=']) ++ val.toList) ++ ['\n'] := by
                simp only [CacheMsg.to_string]
                rw [if_pos httl]
                rfl
              rw [h0, fmtNum_nonneg time ht0, fmtNum_nonneg ttl hl0]
              simp [List.append_assoc]
            have hm : msgMatch ((CacheMsg.to_string (CacheMsg.TellTS key val time ttl true)).toList)
                = some (RawCaps.mk (some (PreCap.mk (some (fmtNumNN time)) false
                    (some (fmtNumNN ttl)))) (key.toList ++ ['#']) '=' val.toList) := by
              rw [hlist]
              exact msgMatch_full_shape (isNumCore_fmtNumNN time) (isTtlNum_fmtNumNN ttl)
                (fun c hc => (hkp2 c hc).1) (fun c hc => (hkp2 c hc).2.1) hv (by decide)
            have hb : ((some (fmtNumNN ttl)).bind parseNum) = parseNum (fmtNumNN ttl) := rfl
            have hlast : ((key.toList ++ ['#']).getLast? == some '#') = true := by
              rw [List.getLast?_concat]
              rfl
            rw [parse_eq_tell_ts hm, parseNum_fmtNumNN time ht0 htdvd, hb,
                parseNum_fmtNumNN ttl hl0 hldvd]
            simp only [Option.getD_some]
            rw [hlast, if_pos rfl, List.dropLast_concat, stringMk_toList, stringMk_toList]
      · have httl0 : ttl = 0 := le_antisymm (not_lt.mp httl) hl0
        subst httl0
        cases ns with
        | false =>
            have hlist : (CacheMsg.to_string (CacheMsg.TellTS key val time 0 false)).toList
                = fmtNumNN time ++ '@' :: (key.toList ++ '=' :: (val.toList ++ ['\n'])) := by
              have h0 : (CacheMsg.to_string (CacheMsg.TellTS key val time 0 false)).toList
                  = (((((fmtNum time ++ ['@']) ++ key.toList) ++ []) ++ ['='])
                      ++ val.toList) ++ ['\n'] := by
                simp only [CacheMsg.to_string]
                rw [if_neg httl]
                rfl
              rw [h0, fmtNum_nonneg time ht0]
              simp [List.append_assoc]
            have hm : msgMatch ((CacheMsg.to_string (CacheMsg.TellTS key val time 0 false)).toList)
                = some (RawCaps.mk (some (PreCap.mk (some (fmtNumNN time)) false none))
                    key.toList '=' val.toList) := by
              rw [hlist]
              exact msgMatch_time_shape (isNumCore_fmtNumNN time)
                (fun c hc => (hkp c hc).1) (fun c hc => (hkp c hc).2.1) hv (by decide)
            have hb : (((none : Option (List Char)).bind parseNum).getD 0) = (0 : ℚ) := rfl
            rw [parse_eq_tell_ts hm, parseNum_fmtNumNN time ht0 htdvd, hb]
            simp only [Option.getD_some]
            rw [noHashEnd_props hh, if_neg Bool.false_ne_true, stringMk_toList, stringMk_toList]
        | true =>
            have hkp2 := hashKey_props hkp
            have hlist : (CacheMsg.to_string (CacheMsg.TellTS key val time 0 true)).toList
                = fmtNumNN time ++ '@' :: ((key.toList ++ ['#']) ++ '=' ::
                    (val.toList ++ ['\n'])) := by
              have h0 : (CacheMsg.to_string (CacheMsg.TellTS key val time 0 true)).toList
                  = (((((fmtNum time ++ ['@']) ++ key.toList) ++ ['#']) ++ ['='])
                      ++ val.toList) ++ ['\n'] := by
                simp only [CacheMsg.to_string]
                rw [if_neg httl]
                rfl
              rw [h0, fmtNum_nonneg time ht0]
              simp [List.append_assoc]
            have hm : msgMatch ((CacheMsg.to_string (CacheMsg.TellTS key val time 0 true)).toList)
                = some (RawCaps.mk (some (PreCap.mk (some (fmtNumNN time)) false none))
                    (key.toList ++ ['#']) '=' val.toList) := by
              rw [hlist]
              exact msgMatch_time_shape (isNumCore_fmtNumNN time)
                (fun c hc => (hkp2 c hc).1) (fun c hc => (hkp2 c hc).2.1) hv (by decide)
            have hb : (((none : Option (List Char)).bind parseNum).getD 0) = (0 : ℚ) := rfl
            have hlast : ((key.toList ++ ['#']).getLast? == some '#') = true := by
              rw [List.getLast?_concat]
              rfl
            rw [parse_eq_tell_ts hm, parseNum_fmtNumNN time ht0 htdvd, hb]
            simp only [Option.getD_some]
            rw [hlast, if_pos rfl, List.dropLast_concat, stringMk_toList, stringMk_toList]
  | LockRes key client =>
      obtain ⟨hk, hv, hne, hhp, hhm⟩ := h2
      have hkp := keySafe_props hk
      have hlist : (CacheMsg.to_string (CacheMsg.LockRes key client)).toList
          = key.toList ++ '$' :: (client.toList ++ ['\n']) := by
        have h0 : (CacheMsg.to_string (CacheMsg.LockRes key client)).toList
            = ((key.toList ++ ['$']) ++ client.toList) ++ ['\n'] := rfl
        rw [h0]
        simp [List.append_assoc]
      have hm : msgMatch ((CacheMsg.to_string (CacheMsg.LockRes key client)).toList)
          = some (RawCaps.mk none key.toList '$' client.toList) := by
        rw [hlist]
        exact msgMatch_noTS_shape (fun c hc => (hkp c hc).1) (fun c hc => (hkp c hc).2.1)
          (fun c hc => (hkp c hc).2.2) hv (by decide) (by decide) (by decide)
      cases hcl : client.toList with
      | nil => exact absurd (String.ext hcl) hne
      | cons c0 crest =>
          rw [hcl] at hm
          have hc0p : ¬c0 = '+' := fun he => hhp (by rw [hcl, List.head?_cons, he])
          have hc0m : ¬c0 = '-' := fun he => hhm (by rw [hcl, List.head?_cons, he])
          rw [parse_eq_lockres hm hc0p hc0m, ← hcl, stringMk_toList, stringMk_toList]

/-- Witness for C3 at a concrete timestamped value update. -/
theorem parse_to_string_witness :
    CacheMsg.parse 5 (CacheMsg.to_string (CacheMsg.TellTS "a/b" "1.5" (3 / 2) 60 false))
      = ParseOutcome.ok (CacheMsg.TellTS "a/b" "1.5" (3 / 2) 60 false) :=
  parse_to_string (CacheMsg.TellTS "a/b" "1.5" (3 / 2) 60 false) 5 True.intro
    ⟨by decide, by decide, by decide,
     ⟨by with_unfolding_all decide, by with_unfolding_all decide⟩,
     ⟨by with_unfolding_all decide, by with_unfolding_all decide⟩⟩

end CacheRS
